import Mathlib

/-!
# MonoDither: the image-quantization core (`Client/src/dithering.js`)

A shallow embedding of the dithering routines and the properties the
specification states about them.

Modelling conventions.

* A JavaScript number is the rational it denotes (`Infinity` and `NaN` are not
  modelled).  The arithmetic of the error diffusion is IEEE double arithmetic: each
  sum, difference, product and quotient is rounded by `roundDouble`, the nearest
  double with ties to the even significand (gradual underflow included, overflow
  not).  A kernel weight and the divisor are written in the source as literals or
  literal quotients such as `7 / 48`; the model holds their exact value and the
  engine reads the double it rounds to.  On 8-bit inputs the squared distances of
  `nearestColor` are exact in doubles, and the comparison of `orderedDither` is
  decided in doubles as it is in `ℚ`, its two sides differing by at least `1 / 384`;
  these two are computed in `ℚ`.
* The pixel buffer `data` is a `List ℚ`.  `data[i]` is `data.getD i 0` (every read
  the routines make is in range when `data.length = 4 * w * h`), and
  `data[i] = v` is `data.set i (store v)`, where `store` is the conversion the
  array applies on assignment: the identity for an ordinary array of numbers and
  `toUint8Clamp` for the `Uint8ClampedArray` (`imgData.data`, obtained from
  `getImageData`) that `processImage` in `DitheringTool.jsx` hands to every
  algorithm.
* A colour or error triple `[a, b, c]` is a `Color`; a kernel entry
  `[dx, dy, factor]` is a triple `ℤ × ℤ × ℚ`.
* `reduce` on an empty palette and indexing `undefined` throw a `TypeError`;
  these are the `none` results.

The file has three parts: the routines of `dithering.js`, the vocabulary the
statements use, and the theorems.  The theorems marked C1 to C10 are the properties
of the specification; the others are the lemmas they rest on.
-/

namespace MonoDither

/-! ## Data model -/

/-- A three-element numeric array `[r, g, b]`. -/
structure Color where
  r : ℚ
  g : ℚ
  b : ℚ
deriving DecidableEq

/-- Channel `k` of a colour: `c[0]`, `c[1]`, `c[2]`. -/
def Color.chan (c : Color) (k : ℕ) : ℚ :=
  match k with
  | 0 => c.r
  | 1 => c.g
  | _ => c.b

/-- The conversion a `Uint8ClampedArray` applies to a number on assignment
(ECMAScript `ToUint8Clamp`): clamp to `[0, 255]`, round to the nearest integer,
ties to the even one. -/
def toUint8Clamp (v : ℚ) : ℚ :=
  if v ≤ 0 then 0
  else if 255 ≤ v then 255
  else
    let f : ℤ := ⌊v⌋
    if v - f < 1 / 2 then f
    else if 1 / 2 < v - f then f + 1
    else if f % 2 = 0 then f else f + 1

/-- Round to the nearest integer, ties to the even one. -/
def roundHalfEven (v : ℚ) : ℤ :=
  let f : ℤ := ⌊v⌋
  if v - f < 1 / 2 then f
  else if 1 / 2 < v - f then f + 1
  else if f % 2 = 0 then f else f + 1

/-- The halving loop of `ilog2`, bounded by `fuel` passes. -/
def log2Loop : ℕ → ℕ → ℕ
  | 0, _ => 0
  | fuel + 1, n => if 2 ≤ n then log2Loop fuel (n / 2) + 1 else 0

/-- For `n > 0`, the `k` with `2 ^ k ≤ n < 2 ^ (k + 1)`. -/
def ilog2 (n : ℕ) : ℕ := log2Loop n n

/-- For `a > 0`, the integer `e` with `2 ^ e ≤ a < 2 ^ (e + 1)`. -/
def binaryExponent (a : ℚ) : ℤ :=
  let e0 : ℤ := (ilog2 a.num.natAbs : ℤ) - (ilog2 a.den : ℤ)
  if a < (2 : ℚ) ^ e0 then e0 - 1 else e0

/-- The IEEE 754 double nearest to `v` (round to nearest, ties to even): with `e` the
binary exponent of `v`, not below `-1022`, the multiple of `2 ^ (e - 52)` nearest to
`v`.  Every arithmetic operation of JavaScript returns this rounding of its exact
result, as long as that is below `2 ^ 1024` in magnitude. -/
def roundDouble (v : ℚ) : ℚ :=
  if v = 0 then 0
  else
    let e : ℤ := max (binaryExponent |v|) (-1022)
    let ulp : ℚ := (2 : ℚ) ^ (e - 52)
    (roundHalfEven (v / ulp) : ℚ) * ulp

/-- The array literal `[data[idx], data[idx + 1], data[idx + 2]]`. -/
def readRGB (data : List ℚ) (idx : ℕ) : Color :=
  ⟨data.getD idx 0, data.getD (idx + 1) 0, data.getD (idx + 2) 0⟩

/-- The three assignments `data[idx] = c[0]; data[idx + 1] = c[1];
data[idx + 2] = c[2]`. -/
def writeRGB (store : ℚ → ℚ) (data : List ℚ) (idx : ℕ) (c : Color) : List ℚ :=
  let data := data.set idx (store c.r)
  let data := data.set (idx + 1) (store c.g)
  let data := data.set (idx + 2) (store c.b)
  data

/-- The three updates `data[idx] += err[0] * factor; data[idx + 1] += err[1] * factor;
data[idx + 2] += err[2] * factor`: the product and then the sum are rounded to
doubles, and the array converts the sum on assignment. -/
def addRGB (store : ℚ → ℚ) (data : List ℚ) (idx : ℕ) (err : Color) (factor : ℚ) :
    List ℚ :=
  let data := data.set idx (store (roundDouble (data.getD idx 0 + roundDouble (err.r * factor))))
  let data := data.set (idx + 1)
    (store (roundDouble (data.getD (idx + 1) 0 + roundDouble (err.g * factor))))
  let data := data.set (idx + 2)
    (store (roundDouble (data.getD (idx + 2) 0 + roundDouble (err.b * factor))))
  data

/-! ## Color helper -/

/-- The local `dist` of `nearestColor`: squared Euclidean distance from `color`. -/
def dist (color : Color) (r g b : ℚ) : ℚ :=
  (color.r - r) ^ 2 + (color.g - g) ^ 2 + (color.b - b) ^ 2

/-- Source `nearestColor(color, palette)`: `palette.reduce` without an initial value, so
the fold starts from `palette[0]` and an empty palette throws. -/
def nearestColor (color : Color) : List Color → Option Color
  | [] => none
  | p :: ps =>
    some (ps.foldl (fun prev curr =>
      if dist color curr.r curr.g curr.b < dist color prev.r prev.g prev.b then curr
      else prev) p)

/-! ## Error diffusion helpers -/

/-- The body of the `for … of pattern` loop of `distributeError`; `factor` is the
double the weight of the entry evaluates to. -/
def distributeStep (store : ℚ → ℚ) (x y w h : ℕ) (err : Color) (data : List ℚ)
    (e : ℤ × ℤ × ℚ) : List ℚ :=
  let factor : ℚ := roundDouble e.2.2
  let nx : ℤ := (x : ℤ) + e.1
  let ny : ℤ := (y : ℤ) + e.2.1
  if nx ≥ 0 ∧ nx < w ∧ ny ≥ 0 ∧ ny < h then
    let idx : ℕ := ((ny * w + nx) * 4).toNat
    addRGB store data idx err factor
  else data

/-- Source `distributeError(data, x, y, w, h, err, pattern)`. -/
def distributeError (store : ℚ → ℚ) (data : List ℚ) (x y w h : ℕ) (err : Color)
    (pattern : List (ℤ × ℤ × ℚ)) : List ℚ :=
  pattern.foldl (distributeStep store x y w h err) data

/-- The body of the two nested loops of `applyErrorDiffusion`, at pixel `(x, y)`; each
difference and quotient of `error` is rounded to a double, and `errDivisor` is read as
the double it evaluates to. -/
def diffusePixel (store : ℚ → ℚ) (w h : ℕ) (palette : List Color)
    (pattern : List (ℤ × ℤ × ℚ)) (errDivisor : ℚ) (data : List ℚ) (y x : ℕ) :
    Option (List ℚ) :=
  let idx := (y * w + x) * 4
  let originalColor := readRGB data idx
  match nearestColor originalColor palette with
  | none => none
  | some quantizedColor =>
    let data := writeRGB store data idx quantizedColor
    let error : Color :=
      ⟨roundDouble (roundDouble (originalColor.r - quantizedColor.r) / roundDouble errDivisor),
       roundDouble (roundDouble (originalColor.g - quantizedColor.g) / roundDouble errDivisor),
       roundDouble (roundDouble (originalColor.b - quantizedColor.b) / roundDouble errDivisor)⟩
    some (distributeError store data x y w h error pattern)

/-- Source `applyErrorDiffusion(data, w, h, palette, pattern, errDivisor)`; the callers that
omit `errDivisor` get its default `1`, passed here explicitly. -/
def applyErrorDiffusion (store : ℚ → ℚ) (data : List ℚ) (w h : ℕ)
    (palette : List Color) (pattern : List (ℤ × ℤ × ℚ)) (errDivisor : ℚ) :
    Option (List ℚ) :=
  (List.range h).foldlM (fun data y =>
    (List.range w).foldlM (fun data x =>
      diffusePixel store w h palette pattern errDivisor data y x) data) data

/-! ## The seven diffusion algorithms -/

/-- The kernel literal of `floydSteinberg`. -/
def floydSteinbergPattern : List (ℤ × ℤ × ℚ) :=
  [(1, 0, 7 / 16),
   (-1, 1, 3 / 16),
   (0, 1, 5 / 16),
   (1, 1, 1 / 16)]

/-- Source `floydSteinberg(data, w, h, palette)`. -/
def floydSteinberg (store : ℚ → ℚ) (data : List ℚ) (w h : ℕ) (palette : List Color) :
    Option (List ℚ) :=
  applyErrorDiffusion store data w h palette floydSteinbergPattern 1

/-- The kernel literal of `atkinson`. -/
def atkinsonPattern : List (ℤ × ℤ × ℚ) :=
  [(1, 0, 1),
   (2, 0, 1),
   (-1, 1, 1),
   (0, 1, 1),
   (1, 1, 1),
   (0, 2, 1)]

/-- Source `atkinson(data, w, h, palette)`: the error is divided by 8 and spread with unit
weights. -/
def atkinson (store : ℚ → ℚ) (data : List ℚ) (w h : ℕ) (palette : List Color) :
    Option (List ℚ) :=
  applyErrorDiffusion store data w h palette atkinsonPattern 8

/-- The kernel literal of `jarvisJudiceNinke`. -/
def jarvisJudiceNinkePattern : List (ℤ × ℤ × ℚ) :=
  [(1, 0, 7 / 48), (2, 0, 5 / 48),
   (-2, 1, 3 / 48), (-1, 1, 5 / 48), (0, 1, 7 / 48), (1, 1, 5 / 48), (2, 1, 3 / 48),
   (-2, 2, 1 / 48), (-1, 2, 3 / 48), (0, 2, 5 / 48), (1, 2, 3 / 48), (2, 2, 1 / 48)]

/-- Source `jarvisJudiceNinke(data, w, h, palette)`. -/
def jarvisJudiceNinke (store : ℚ → ℚ) (data : List ℚ) (w h : ℕ)
    (palette : List Color) : Option (List ℚ) :=
  applyErrorDiffusion store data w h palette jarvisJudiceNinkePattern 1

/-- The kernel literal of `stucki`. -/
def stuckiPattern : List (ℤ × ℤ × ℚ) :=
  [(1, 0, 8 / 42), (2, 0, 4 / 42),
   (-2, 1, 2 / 42), (-1, 1, 4 / 42), (0, 1, 8 / 42), (1, 1, 4 / 42), (2, 1, 2 / 42),
   (-2, 2, 1 / 42), (-1, 2, 2 / 42), (0, 2, 4 / 42), (1, 2, 2 / 42), (2, 2, 1 / 42)]

/-- Source `stucki(data, w, h, palette)`. -/
def stucki (store : ℚ → ℚ) (data : List ℚ) (w h : ℕ) (palette : List Color) :
    Option (List ℚ) :=
  applyErrorDiffusion store data w h palette stuckiPattern 1

/-- The kernel literal of `burkes`. -/
def burkesPattern : List (ℤ × ℤ × ℚ) :=
  [(1, 0, 8 / 32), (2, 0, 4 / 32),
   (-2, 1, 2 / 32), (-1, 1, 4 / 32), (0, 1, 8 / 32), (1, 1, 4 / 32), (2, 1, 2 / 32)]

/-- Source `burkes(data, w, h, palette)`. -/
def burkes (store : ℚ → ℚ) (data : List ℚ) (w h : ℕ) (palette : List Color) :
    Option (List ℚ) :=
  applyErrorDiffusion store data w h palette burkesPattern 1

/-- The kernel literal of `sierra`. -/
def sierraPattern : List (ℤ × ℤ × ℚ) :=
  [(1, 0, 5 / 32), (2, 0, 3 / 32),
   (-2, 1, 2 / 32), (-1, 1, 4 / 32), (0, 1, 5 / 32), (1, 1, 4 / 32), (2, 1, 2 / 32),
   (-1, 2, 2 / 32), (0, 2, 3 / 32), (1, 2, 2 / 32)]

/-- Source `sierra(data, w, h, palette)`. -/
def sierra (store : ℚ → ℚ) (data : List ℚ) (w h : ℕ) (palette : List Color) :
    Option (List ℚ) :=
  applyErrorDiffusion store data w h palette sierraPattern 1

/-- The kernel literal of `sierraLite`. -/
def sierraLitePattern : List (ℤ × ℤ × ℚ) :=
  [(1, 0, 2 / 4),
   (-1, 1, 1 / 4), (0, 1, 1 / 4)]

/-- Source `sierraLite(data, w, h, palette)`. -/
def sierraLite (store : ℚ → ℚ) (data : List ℚ) (w h : ℕ) (palette : List Color) :
    Option (List ℚ) :=
  applyErrorDiffusion store data w h palette sierraLitePattern 1

/-! ## Bayer matrix -/

/-- The assignment `res[y][x] = v` on an array of rows. -/
def setCell (res : List (List ℕ)) (y x v : ℕ) : List (List ℕ) :=
  res.set y ((res.getD y []).set x v)

/-- One pass of the body of the `while` loop of `generateBayerMatrix`: the matrix of
side `size * 2` filled from `m`, starting from the zero matrix. -/
def bayerDouble (size : ℕ) (m : List (List ℕ)) : List (List ℕ) :=
  let next := size * 2
  let res := List.replicate next (List.replicate next 0)
  (List.range size).foldl (fun res y =>
    (List.range size).foldl (fun res x =>
      let v := (m.getD y []).getD x 0 * 4
      let res := setCell res y x (v + 0)
      let res := setCell res y (x + size) (v + 2)
      let res := setCell res (y + size) x (v + 3)
      let res := setCell res (y + size) (x + size) (v + 1)
      res) res) res

/-- The loop `while (size < n) { … }` of `generateBayerMatrix`, with a bound on the
number of passes; `none` when the bound is used up before the loop exits. -/
def bayerLoop (n : ℕ) : ℕ → ℕ → List (List ℕ) → Option (List (List ℕ))
  | fuel, size, m =>
    if size < n then
      match fuel with
      | 0 => none
      | fuel + 1 => bayerLoop n fuel (size * 2) (bayerDouble size m)
    else some m

/-- Source `generateBayerMatrix(n)`: double `[[0, 2], [3, 1]]` until the side reaches `n`,
then trim to the top-left `n` by `n` block.  `n` passes always suffice for the loop
(`generateBayerMatrix_isSome`). -/
def generateBayerMatrix (n : ℕ) : Option (List (List ℕ)) :=
  match bayerLoop n n 2 [[0, 2], [3, 1]] with
  | none => none
  | some m =>
    if m.length ≠ n then some ((m.take n).map (fun row => row.take n))
    else some m

/-! ## Ordered dither and nearest -/

/-- The clamp `Math.max(2, Math.min(8, size))` of `orderedDither`, for an integer
`size`. -/
def clampSize (size : ℤ) : ℕ :=
  (max 2 (min 8 size)).toNat

/-- The body of the two nested loops of `orderedDither`, at pixel `(x, y)`. -/
def orderedPixel (store : ℚ → ℚ) (w : ℕ) (palette : List Color) (n : ℕ)
    (matrix : List (List ℕ)) (data : List ℚ) (y x : ℕ) : Option (List ℚ) :=
  let denom := n * n
  let idx := (y * w + x) * 4
  let old := readRGB data idx
  let gray := (old.r + old.g + old.b) / 3
  let threshold := ((((matrix.getD (y % n) []).getD (x % n) 0 : ℕ) : ℚ) + 1 / 2)
    / (denom : ℚ) * 255
  match (if gray < threshold then palette[0]? else palette[palette.length - 1]?) with
  | none => none
  | some newVal => some (writeRGB store data idx newVal)

/-- Source `orderedDither(data, w, h, palette, size)`. -/
def orderedDither (store : ℚ → ℚ) (data : List ℚ) (w h : ℕ) (palette : List Color)
    (size : ℤ) : Option (List ℚ) :=
  let n := clampSize size
  match generateBayerMatrix n with
  | none => none
  | some matrix =>
    (List.range h).foldlM (fun data y =>
      (List.range w).foldlM (fun data x =>
        orderedPixel store w palette n matrix data y x) data) data

/-- The body of the two nested loops of `nearest`, at pixel `(x, y)`. -/
def nearestPixel (store : ℚ → ℚ) (w : ℕ) (palette : List Color) (data : List ℚ)
    (y x : ℕ) : Option (List ℚ) :=
  let idx := (y * w + x) * 4
  let old := readRGB data idx
  match nearestColor old palette with
  | none => none
  | some newCol => some (writeRGB store data idx newCol)

/-- Source `nearest(data, w, h, palette)`. -/
def nearest (store : ℚ → ℚ) (data : List ℚ) (w h : ℕ) (palette : List Color) :
    Option (List ℚ) :=
  (List.range h).foldlM (fun data y =>
    (List.range w).foldlM (fun data x =>
      nearestPixel store w palette data y x) data) data

/-! ## Vocabulary of the statements -/

/-- Squared distance from `color` to a palette entry, as `nearestColor` computes it. -/
def distTo (color c : Color) : ℚ := dist color c.r c.g c.b

/-- The callback of the `reduce` in `nearestColor`. -/
def closer (color prev curr : Color) : Color :=
  if dist color curr.r curr.g curr.b < dist color prev.r prev.g prev.b then curr else prev

/-- The colour `q` sits at index `i` of `l`, nothing in `l` is strictly closer to `color`, and
everything before index `i` is strictly farther. -/
def FirstMin (color : Color) (l : List Color) (i : ℕ) (q : Color) : Prop :=
  l[i]? = some q ∧
  (∀ (j : ℕ) (c : Color), l[j]? = some c → distTo color q ≤ distTo color c) ∧
  (∀ (j : ℕ) (c : Color), j < i → l[j]? = some c → distTo color q < distTo color c)

/-- A loop body that replaces the colour of pixel `(x, y)` by a function of that
colour and of the position. -/
def pointStep (store : ℚ → ℚ) (w : ℕ) (g : Color → ℕ → ℕ → Option Color) (data : List ℚ)
    (y x : ℕ) : Option (List ℚ) :=
  (g (readRGB data (4 * (y * w + x))) y x).map (writeRGB store data (4 * (y * w + x)))

/-- The colour `orderedDither` picks for a pixel of colour `old` at `(x, y)`. -/
def orderedChoice (palette : List Color) (n : ℕ) (matrix : List (List ℕ)) (old : Color)
    (y x : ℕ) : Option Color :=
  if (old.r + old.g + old.b) / 3
      < ((((matrix.getD (y % n) []).getD (x % n) 0 : ℕ) : ℚ) + 1 / 2) / ((n * n : ℕ) : ℚ) * 255
  then palette[0]? else palette[palette.length - 1]?

/-- Kernel entry `e`, applied at pixel `(x, y)` of a `w` by `h` image, lands on the
pixel of index `p`: its target column and row are inside the image and `p` is the
index of that target. -/
def hits (w h x y : ℕ) (e : ℤ × ℤ × ℚ) (p : ℕ) : Prop :=
  0 ≤ (x : ℤ) + e.1 ∧ (x : ℤ) + e.1 < w ∧ 0 ≤ (y : ℤ) + e.2.1 ∧ (y : ℤ) + e.2.1 < h ∧
    (p : ℤ) = ((y : ℤ) + e.2.1) * w + ((x : ℤ) + e.1)

instance decidableHits (w h x y : ℕ) (e : ℤ × ℤ × ℚ) (p : ℕ) :
    Decidable (hits w h x y e p) := by
  unfold hits; infer_instance

/-- The value a cell of channel `k` of pixel `p` ends with, starting from `v0`, once
every kernel entry that lands on `p` has, in kernel order, replaced the value `v` of
the cell by the conversion of the double sum `v + err[k] * factor`, the product being
a double product and `factor` the double of the weight. -/
def received (store : ℚ → ℚ) (w h x y : ℕ) (err : Color) (pattern : List (ℤ × ℤ × ℚ))
    (p k : ℕ) (v0 : ℚ) : ℚ :=
  pattern.foldl (fun v e =>
    if hits w h x y e p then
      store (roundDouble (v + roundDouble (err.chan k * roundDouble e.2.2)))
    else v) v0

/-- The quantization error `applyErrorDiffusion` spreads: `(original - quantized) /
errDivisor`, channel by channel, the difference and the quotient being those of
doubles. -/
def quantError (c q : Color) (errDivisor : ℚ) : Color :=
  ⟨roundDouble (roundDouble (c.r - q.r) / roundDouble errDivisor),
   roundDouble (roundDouble (c.g - q.g) / roundDouble errDivisor),
   roundDouble (roundDouble (c.b - q.b) / roundDouble errDivisor)⟩

/-- An integer in `[0, 255]`: a value an 8-bit channel can hold. -/
def IsByte (v : ℚ) : Prop := ((⌊v⌋ : ℤ) : ℚ) = v ∧ 0 ≤ v ∧ v ≤ 255

instance decidableIsByte (v : ℚ) : Decidable (IsByte v) := by
  unfold IsByte; infer_instance

/-- A colour whose three channels are integers in `[0, 255]`. -/
def ByteColor (c : Color) : Prop := IsByte c.r ∧ IsByte c.g ∧ IsByte c.b

instance decidableByteColor (c : Color) : Decidable (ByteColor c) := by
  unfold ByteColor; infer_instance

/-- The buffer keeps every integer of `[0, 255]` unchanged on assignment. -/
def StoresBytes (store : ℚ → ℚ) : Prop := ∀ v, IsByte v → store v = v

/-- The buffer keeps every channel of every palette colour unchanged on assignment. -/
def Keeps (store : ℚ → ℚ) (palette : List Color) : Prop :=
  ∀ c ∈ palette, store c.r = c.r ∧ store c.g = c.g ∧ store c.b = c.b

instance decidableKeeps (store : ℚ → ℚ) (palette : List Color) :
    Decidable (Keeps store palette) := by
  unfold Keeps; infer_instance

/-- Raster-scan causality of a kernel: every entry points below the current row, or
to the right on the current row. -/
def Causal (pattern : List (ℤ × ℤ × ℚ)) : Prop :=
  ∀ e ∈ pattern, 0 < e.2.1 ∨ (e.2.1 = 0 ∧ 0 < e.1)

instance decidableCausal (pattern : List (ℤ × ℤ × ℚ)) : Decidable (Causal pattern) := by
  unfold Causal; infer_instance

/-- The threshold matrices of the specification, by number of doublings: `specBayer 0`
is `B_2 = [[0, 2], [3, 1]]`, and `specBayer (k + 1)` is built from `B = specBayer k`
with `4 * B` in the top-left quadrant, `4 * B + 2` top-right, `4 * B + 3` bottom-left
and `4 * B + 1` bottom-right.  Its side is `2 ^ (k + 1)`. -/
def specBayer : ℕ → List (List ℕ)
  | 0 => [[0, 2], [3, 1]]
  | k + 1 =>
    (specBayer k).map (fun row => row.map (fun v => 4 * v) ++ row.map (fun v => 4 * v + 2))
    ++ (specBayer k).map (fun row => row.map (fun v => 4 * v + 3) ++ row.map (fun v => 4 * v + 1))

/-- The top-left `n` by `n` block of a matrix. -/
def topLeft (n : ℕ) (m : List (List ℕ)) : List (List ℕ) :=
  (m.take n).map (fun row => row.take n)

/-- A matrix is square of side `n`. -/
def SquareOfSide (n : ℕ) (m : List (List ℕ)) : Prop :=
  m.length = n ∧ ∀ row ∈ m, row.length = n

instance decidableSquareOfSide (n : ℕ) (m : List (List ℕ)) : Decidable (SquareOfSide n m) := by
  unfold SquareOfSide; infer_instance

/-- The three colour cells of pixel `p` of `out` hold the channels of `c`. -/
def PixelIs (out : List ℚ) (p : ℕ) (c : Color) : Prop :=
  out.getD (4 * p) 0 = c.r ∧ out.getD (4 * p + 1) 0 = c.g ∧ out.getD (4 * p + 2) 0 = c.b

instance decidablePixelIs (out : List ℚ) (p : ℕ) (c : Color) : Decidable (PixelIs out p c) := by
  unfold PixelIs; infer_instance

/-- The unweighted mean `(R + G + B) / 3` of pixel `p` of a buffer. -/
def grayOf (data : List ℚ) (p : ℕ) : ℚ :=
  (data.getD (4 * p) 0 + data.getD (4 * p + 1) 0 + data.getD (4 * p + 2) 0) / 3

/-- The threshold `(M[y mod n][x mod n] + 1/2) / (n * n) * 255` of the specification. -/
def thresholdAt (n : ℕ) (M : List (List ℕ)) (y x : ℕ) : ℚ :=
  (((M.getD (y % n) []).getD (x % n) 0 : ℚ) + 1 / 2) / ((n : ℚ) * n) * 255

/-- The kernel the engine effectively applies: each weight divided by the divisor. -/
def effective (pattern : List (ℤ × ℤ × ℚ)) (divisor : ℚ) : List (ℤ × ℤ × ℚ) :=
  pattern.map (fun e => (e.1, e.2.1, e.2.2 / divisor))

/-- One row of a published kernel: the numerators `nums` over the denominator `den`,
on row `dy`, at the columns `dx`, `dx + 1`, … -/
def publishedRow (den : ℚ) (dy : ℤ) : ℤ → List ℚ → List (ℤ × ℤ × ℚ)
  | _, [] => []
  | dx, a :: rest => (dx, dy, a / den) :: publishedRow den dy (dx + 1) rest

/-- A published kernel, from its rows `(dy, first dx, numerators)` and its
denominator. -/
def published (den : ℚ) (rows : List (ℤ × ℤ × List ℚ)) : List (ℤ × ℤ × ℚ) :=
  (rows.map (fun row => publishedRow den row.1 row.2.1 row.2.2)).flatten

/-- The number of image rows a kernel reaches. -/
def rowCount (pattern : List (ℤ × ℤ × ℚ)) : ℕ :=
  (pattern.map (fun e => e.2.1)).dedup.length

/-- The sum of the effective weights of a kernel. -/
def weightSum (pattern : List (ℤ × ℤ × ℚ)) (divisor : ℚ) : ℚ :=
  ((effective pattern divisor).map (fun e => e.2.2)).sum

/-- The kernel `pattern` with divisor `divisor` is the published kernel with the given
rows and denominator, has `entries` entries over `nrows` rows, is causal, and its
effective weights sum to `total`, which is at most 1. -/
def Canonical (pattern : List (ℤ × ℤ × ℚ)) (divisor den : ℚ)
    (rows : List (ℤ × ℤ × List ℚ)) (entries nrows : ℕ) (total : ℚ) : Prop :=
  effective pattern divisor = published den rows ∧ pattern.length = entries ∧
    rowCount pattern = nrows ∧ Causal pattern ∧ weightSum pattern divisor = total ∧
    total ≤ 1

instance decidableCanonical (pattern : List (ℤ × ℤ × ℚ)) (divisor den : ℚ)
    (rows : List (ℤ × ℤ × List ℚ)) (entries nrows : ℕ) (total : ℚ) :
    Decidable (Canonical pattern divisor den rows entries nrows total) := by
  unfold Canonical; infer_instance

/-- The multiple `k * u` of `u` is nearest to `v`, and `k` is even when `v` lies halfway
between two multiples. -/
def NearestEven (v : ℚ) (k : ℤ) (u : ℚ) : Prop :=
  |(k : ℚ) * u - v| ≤ u / 2 ∧ (|(k : ℚ) * u - v| = u / 2 → Even k)

/-- A magnitude between `2 ^ (-500)` and `2 ^ 500`: a quotient of an 8-bit difference by
such a divisor, multiplied by a weight of magnitude at most `2 ^ 500` and added to an
8-bit value, stays below `2 ^ 1024`, so no double of the diffusion overflows. -/
def Moderate (v : ℚ) : Prop := 1 / 2 ^ 500 ≤ |v| ∧ |v| ≤ 2 ^ 500

instance decidableModerate (v : ℚ) : Decidable (Moderate v) := by
  unfold Moderate; infer_instance

/-! # Theorems -/

/-! ## Lists as buffers -/

theorem getD_set (l : List ℚ) (i j : ℕ) (v : ℚ) :
    (l.set i v).getD j 0 = if i = j ∧ i < l.length then v else l.getD j 0 := by
  simp only [List.getD_eq_getElem?_getD, List.getElem?_set']
  by_cases hij : i = j
  · subst hij
    by_cases hi : i < l.length
    · simp [hi]
    · simp [hi, List.getElem?_eq_none (Nat.le_of_not_lt hi)]
  · simp [hij]

theorem length_writeRGB (store : ℚ → ℚ) (data : List ℚ) (idx : ℕ) (c : Color) :
    (writeRGB store data idx c).length = data.length := by
  simp [writeRGB]

theorem length_addRGB (store : ℚ → ℚ) (data : List ℚ) (idx : ℕ) (err : Color) (f : ℚ) :
    (addRGB store data idx err f).length = data.length := by
  simp [addRGB]

theorem chan_zero (c : Color) : c.chan 0 = c.r := rfl

theorem chan_one (c : Color) : c.chan 1 = c.g := rfl

theorem chan_two (c : Color) : c.chan 2 = c.b := rfl

/-- Cell `4 * p + k` after writing a colour at pixel `t`. -/
theorem getD_writeRGB (store : ℚ → ℚ) (data : List ℚ) (t : ℕ) (c : Color)
    (ht : 4 * t + 3 < data.length + 1) (p k : ℕ) (hk : k < 3) :
    (writeRGB store data (4 * t) c).getD (4 * p + k) 0
      = if p = t then store (c.chan k) else data.getD (4 * p + k) 0 := by
  simp only [writeRGB, getD_set, List.length_set]
  by_cases hp : p = t
  · subst hp
    interval_cases k
    · simp [chan_zero]; omega
    · simp [chan_one]; omega
    · simp [chan_two]; omega
  · have h0 : ¬ (4 * t = 4 * p + k) := by omega
    have h1 : ¬ (4 * t + 1 = 4 * p + k) := by omega
    have h2 : ¬ (4 * t + 2 = 4 * p + k) := by omega
    simp [hp, h0, h1, h2]

/-- Writing a colour never touches an alpha cell. -/
theorem getD_writeRGB_alpha (store : ℚ → ℚ) (data : List ℚ) (t : ℕ) (c : Color) (p : ℕ) :
    (writeRGB store data (4 * t) c).getD (4 * p + 3) 0 = data.getD (4 * p + 3) 0 := by
  simp only [writeRGB, getD_set, List.length_set]
  have h0 : ¬ (4 * t = 4 * p + 3) := by omega
  have h1 : ¬ (4 * t + 1 = 4 * p + 3) := by omega
  have h2 : ¬ (4 * t + 2 = 4 * p + 3) := by omega
  simp [h0, h1, h2]

/-- Cell `4 * p + k` after adding a share of the error at pixel `t`. -/
theorem getD_addRGB (store : ℚ → ℚ) (data : List ℚ) (t : ℕ) (err : Color) (f : ℚ)
    (ht : 4 * t + 3 < data.length + 1) (p k : ℕ) (hk : k < 3) :
    (addRGB store data (4 * t) err f).getD (4 * p + k) 0
      = if p = t then store (roundDouble (data.getD (4 * p + k) 0 + roundDouble (err.chan k * f)))
        else data.getD (4 * p + k) 0 := by
  simp only [addRGB, getD_set, List.length_set]
  by_cases hp : p = t
  · subst hp
    interval_cases k
    · simp [chan_zero]; omega
    · simp [chan_one]; omega
    · simp [chan_two]; omega
  · have h0 : ¬ (4 * t = 4 * p + k) := by omega
    have h1 : ¬ (4 * t + 1 = 4 * p + k) := by omega
    have h2 : ¬ (4 * t + 2 = 4 * p + k) := by omega
    simp [hp, h0, h1, h2]

theorem getD_addRGB_alpha (store : ℚ → ℚ) (data : List ℚ) (t : ℕ) (err : Color) (f : ℚ)
    (p : ℕ) :
    (addRGB store data (4 * t) err f).getD (4 * p + 3) 0 = data.getD (4 * p + 3) 0 := by
  simp only [addRGB, getD_set, List.length_set]
  have h0 : ¬ (4 * t = 4 * p + 3) := by omega
  have h1 : ¬ (4 * t + 1 = 4 * p + 3) := by omega
  have h2 : ¬ (4 * t + 2 = 4 * p + 3) := by omega
  simp [h0, h1, h2]

/-- Two buffers of one length that agree cell by cell are equal. -/
theorem eq_of_getD (a b : List ℚ) (hlen : a.length = b.length)
    (h : ∀ j, j < a.length → a.getD j 0 = b.getD j 0) : a = b := by
  apply List.ext_getElem hlen
  intro j h1 h2
  have := h j h1
  rwa [List.getD_eq_getElem _ _ h1, List.getD_eq_getElem _ _ h2] at this

/-! ## The colour matcher -/

theorem nearestColor_cons (color p : Color) (ps : List Color) :
    nearestColor color (p :: ps) = some (ps.foldl (closer color) p) := rfl

theorem firstMin_foldl (color p : Color) (ps : List Color) :
    ∃ i, FirstMin color (p :: ps) i (ps.foldl (closer color) p) := by
  induction ps using List.reverseRecOn with
  | nil =>
    refine ⟨0, by simp, ?_, ?_⟩
    · intro j c hj
      cases j with
      | zero => simp at hj; subst hj; exact le_refl _
      | succ j => simp at hj
    · intro j c hj; omega
  | append_singleton ps a ih =>
    obtain ⟨i, hi, hmin, hfirst⟩ := ih
    rw [List.foldl_append]
    simp only [List.foldl_cons, List.foldl_nil]
    set q := ps.foldl (closer color) p with hq
    have hilt : i < (p :: ps).length := by
      by_contra hcon
      rw [List.getElem?_eq_none (Nat.le_of_not_lt hcon)] at hi
      exact Option.noConfusion hi
    have hsplit : ∀ j c, (p :: (ps ++ [a]))[j]? = some c →
        (p :: ps)[j]? = some c ∨ (j = (p :: ps).length ∧ c = a) := by
      intro j c hj
      rw [← List.cons_append] at hj
      rcases Nat.lt_or_ge j (p :: ps).length with hlt | hge
      · left; rwa [List.getElem?_append_left hlt] at hj
      · right
        rw [List.getElem?_append_right hge] at hj
        rcases Nat.eq_or_lt_of_le hge with heq | hgt
        · refine ⟨heq.symm, ?_⟩
          rw [← heq] at hj; simp at hj; exact hj.symm
        · have h1 : j - (p :: ps).length = (j - (p :: ps).length - 1) + 1 := by omega
          rw [h1] at hj
          simp at hj
    by_cases hlt : dist color a.r a.g a.b < dist color q.r q.g q.b
    · have hc : closer color q a = a := by simp [closer, hlt]
      rw [hc]
      refine ⟨(p :: ps).length, ?_, ?_, ?_⟩
      · rw [← List.cons_append, List.getElem?_append_right (le_refl _)]; simp
      · intro j c hj
        rcases hsplit j c hj with h | ⟨_, h⟩
        · exact le_of_lt (lt_of_lt_of_le hlt (hmin j c h))
        · subst h; exact le_refl _
      · intro j c hji hj
        rcases hsplit j c hj with h | ⟨h, _⟩
        · exact lt_of_lt_of_le hlt (hmin j c h)
        · omega
    · have hc : closer color q a = q := by simp [closer, hlt]
      rw [hc]
      refine ⟨i, ?_, ?_, ?_⟩
      · rw [← List.cons_append, List.getElem?_append_left hilt]; exact hi
      · intro j c hj
        rcases hsplit j c hj with h | ⟨_, h⟩
        · exact hmin j c h
        · subst h; exact not_lt.mp hlt
      · intro j c hji hj
        rcases hsplit j c hj with h | ⟨h, _⟩
        · exact hfirst j c hji h
        · omega

theorem nearestColor_firstMin (color : Color) (palette : List Color) (hne : palette ≠ []) :
    ∃ i q, nearestColor color palette = some q ∧ FirstMin color palette i q := by
  cases palette with
  | nil => exact absurd rfl hne
  | cons p ps =>
    obtain ⟨i, hi⟩ := firstMin_foldl color p ps
    exact ⟨i, _, nearestColor_cons color p ps, hi⟩

theorem nearestColor_mem (color q : Color) (palette : List Color)
    (h : nearestColor color palette = some q) : q ∈ palette := by
  cases palette with
  | nil => simp [nearestColor] at h
  | cons p ps =>
    obtain ⟨i, q', hq', hi, _, _⟩ := nearestColor_firstMin color (p :: ps) (by simp)
    rw [h] at hq'
    cases hq'
    exact List.mem_iff_getElem?.mpr ⟨i, hi⟩

theorem nearestColor_isSome (color : Color) (palette : List Color) (hne : palette ≠ []) :
    ∃ q, nearestColor color palette = some q := by
  obtain ⟨_, q, hq, _⟩ := nearestColor_firstMin color palette hne
  exact ⟨q, hq⟩

theorem distTo_self (c : Color) : distTo c c = 0 := by
  simp [distTo, dist]

theorem eq_of_distTo_le_zero (c q : Color) (h : distTo c q ≤ 0) : q = c := by
  unfold distTo dist at h
  have n1 := sq_nonneg (c.r - q.r)
  have n2 := sq_nonneg (c.g - q.g)
  have n3 := sq_nonneg (c.b - q.b)
  have h1 : (c.r - q.r) ^ 2 = 0 := by linarith
  have h2 : (c.g - q.g) ^ 2 = 0 := by linarith
  have h3 : (c.b - q.b) ^ 2 = 0 := by linarith
  have e1 : c.r = q.r := by have := pow_eq_zero_iff (two_ne_zero) |>.mp h1; linarith
  have e2 : c.g = q.g := by have := pow_eq_zero_iff (two_ne_zero) |>.mp h2; linarith
  have e3 : c.b = q.b := by have := pow_eq_zero_iff (two_ne_zero) |>.mp h3; linarith
  cases c; cases q; simp_all

/-- A palette colour is its own nearest colour. -/
theorem nearestColor_of_mem (c : Color) (palette : List Color) (hc : c ∈ palette) :
    nearestColor c palette = some c := by
  obtain ⟨i, q, hq, _, hmin, _⟩ := nearestColor_firstMin c palette (List.ne_nil_of_mem hc)
  obtain ⟨j, hj⟩ := List.getElem?_of_mem hc
  have := hmin j c hj
  rw [distTo_self] at this
  rw [hq, eq_of_distTo_le_zero c q this]

/-! ## Loop rules for the raster scan -/

/-- Invariant rule for a counted loop whose body may throw. -/
theorem foldlM_range_inv {σ : Type} (f : σ → ℕ → Option σ) (P : ℕ → σ → Prop) (n : ℕ)
    (s0 : σ) (h0 : P 0 s0)
    (hstep : ∀ i s, i < n → P i s → ∃ s', f s i = some s' ∧ P (i + 1) s') :
    ∃ s', (List.range n).foldlM f s0 = some s' ∧ P n s' := by
  induction n with
  | zero => exact ⟨s0, by simp, h0⟩
  | succ n ih =>
    obtain ⟨s1, h1, p1⟩ := ih (fun i s hi hp => hstep i s (Nat.lt_succ_of_lt hi) hp)
    obtain ⟨s2, h2, p2⟩ := hstep n s1 (Nat.lt_succ_self n) p1
    refine ⟨s2, ?_, p2⟩
    rw [List.range_succ, List.foldlM_append, h1]
    simp [h2]

/-- Invariant rule for the row-major double loop `for y … for x …`: the invariant is
indexed by the number `y * w + x` of pixels already visited. -/
theorem raster_inv {σ : Type} (f : σ → ℕ → ℕ → Option σ) (P : ℕ → σ → Prop) (w h : ℕ)
    (s0 : σ) (h0 : P 0 s0)
    (hstep : ∀ y x s, y < h → x < w → P (y * w + x) s →
      ∃ s', f s y x = some s' ∧ P (y * w + x + 1) s') :
    ∃ s', (List.range h).foldlM (fun s y => (List.range w).foldlM (fun s x => f s y x) s) s0
        = some s' ∧ P (h * w) s' := by
  apply foldlM_range_inv (fun s y => (List.range w).foldlM (fun s x => f s y x) s)
    (fun y s => P (y * w) s) h s0 (by simpa using h0)
  intro y s hy hP
  obtain ⟨s', hs', hp'⟩ := foldlM_range_inv (fun s x => f s y x) (fun x s => P (y * w + x) s)
    w s (by simpa using hP) (fun x s hx hp => hstep y x s hy hx hp)
  refine ⟨s', hs', ?_⟩
  have e : (y + 1) * w = y * w + w := by ring
  rw [e]
  exact hp'

theorem pixel_lt (w h y x : ℕ) (hy : y < h) (hx : x < w) : y * w + x < h * w := by
  have h1 : (y + 1) * w ≤ h * w := Nat.mul_le_mul_right w hy
  have h2 : (y + 1) * w = y * w + w := by ring
  omega

theorem pixel_inj (w y x y' x' : ℕ) (hx : x < w) (hx' : x' < w)
    (h : y' * w + x' = y * w + x) : y' = y ∧ x' = x := by
  rcases Nat.lt_trichotomy y' y with hlt | heq | hgt
  · have h1 : (y' + 1) * w ≤ y * w := Nat.mul_le_mul_right w hlt
    have h2 : (y' + 1) * w = y' * w + w := by ring
    omega
  · subst heq
    exact ⟨rfl, by omega⟩
  · have h1 : (y + 1) * w ≤ y' * w := Nat.mul_le_mul_right w hgt
    have h2 : (y + 1) * w = y * w + w := by ring
    omega

/-- Every pixel index below `h * w` is `y * w + x` for a row `y < h` and a column
`x < w`. -/
theorem pixel_coords (w h p : ℕ) (hp : p < h * w) :
    ∃ y x, y < h ∧ x < w ∧ p = y * w + x := by
  have hw : 0 < w := by
    rcases Nat.eq_zero_or_pos w with h0 | h0
    · subst h0; simp at hp
    · exact h0
  refine ⟨p / w, p % w, ?_, Nat.mod_lt _ hw, ?_⟩
  · exact Nat.div_lt_of_lt_mul (by rwa [Nat.mul_comm] at hp)
  · rw [Nat.mul_comm]; exact (Nat.div_add_mod p w).symm

/-! ## Pointwise algorithms (`nearest`, `orderedDither`) -/

/-- A cell outside the three colour cells of pixel `t` keeps its value. -/
theorem getD_writeRGB_far (store : ℚ → ℚ) (data : List ℚ) (t : ℕ) (c : Color) (j : ℕ)
    (hj : j < 4 * t ∨ 4 * t + 3 ≤ j) :
    (writeRGB store data (4 * t) c).getD j 0 = data.getD j 0 := by
  simp only [writeRGB, getD_set, List.length_set]
  have h0 : ¬ (4 * t = j) := by omega
  have h1 : ¬ (4 * t + 1 = j) := by omega
  have h2 : ¬ (4 * t + 2 = j) := by omega
  simp [h0, h1, h2]

/-- The result of a pointwise scan: every pixel holds the stored image of the colour
computed from its input colour, alpha cells and the length are as before. -/
theorem pointScan (store : ℚ → ℚ) (g : Color → ℕ → ℕ → Option Color) (w h : ℕ)
    (data : List ℚ) (hlen : data.length = 4 * w * h)
    (hg : ∀ y x c, y < h → x < w → ∃ q, g c y x = some q) :
    ∃ out, (List.range h).foldlM (fun s y =>
        (List.range w).foldlM (fun s x => pointStep store w g s y x) s) data = some out ∧
      out.length = data.length ∧
      (∀ p, out.getD (4 * p + 3) 0 = data.getD (4 * p + 3) 0) ∧
      ∀ y x, y < h → x < w → ∃ q, g (readRGB data (4 * (y * w + x))) y x = some q ∧
        ∀ c, c < 3 → out.getD (4 * (y * w + x) + c) 0 = store (q.chan c) := by
  obtain ⟨out, hout, hl, _, ha, hpix⟩ := raster_inv (fun s y x => pointStep store w g s y x)
    (fun k s => s.length = data.length ∧
      (∀ j, 4 * k ≤ j → s.getD j 0 = data.getD j 0) ∧
      (∀ p, s.getD (4 * p + 3) 0 = data.getD (4 * p + 3) 0) ∧
      ∀ y x, x < w → y * w + x < k →
        ∃ q, g (readRGB data (4 * (y * w + x))) y x = some q ∧
          ∀ c, c < 3 → s.getD (4 * (y * w + x) + c) 0 = store (q.chan c))
    w h data
    ⟨rfl, fun _ _ => rfl, fun _ => rfl, fun y x _ hk => absurd hk (Nat.not_lt_zero _)⟩
    (by
      intro y x s hy hx ⟨hl, hrest, ha, hdone⟩
      have hk : y * w + x < h * w := pixel_lt w h y x hy hx
      have hread : readRGB s (4 * (y * w + x)) = readRGB data (4 * (y * w + x)) := by
        simp only [readRGB]
        rw [hrest _ (le_refl _), hrest _ (Nat.le_add_right _ 1), hrest _ (Nat.le_add_right _ 2)]
      obtain ⟨q, hq⟩ := hg y x (readRGB data (4 * (y * w + x))) hy hx
      refine ⟨writeRGB store s (4 * (y * w + x)) q, ?_, ?_, ?_, ?_, ?_⟩
      · simp [pointStep, hread, hq]
      · rw [length_writeRGB, hl]
      · intro j hj
        rw [getD_writeRGB_far store s _ q j (by omega)]
        exact hrest j (by omega)
      · intro p
        rw [getD_writeRGB_alpha]
        exact ha p
      · intro y' x' hx' hlt
        have hfit : 4 * (y * w + x) + 3 < s.length + 1 := by
          rw [hl, hlen]
          have : 4 * w * h = 4 * (h * w) := by ring
          omega
        rcases Nat.lt_or_ge (y' * w + x') (y * w + x) with hlt' | hge
        · obtain ⟨q', hq', hv⟩ := hdone y' x' hx' hlt'
          refine ⟨q', hq', fun c hc => ?_⟩
          rw [getD_writeRGB store s _ q hfit _ c hc, if_neg (by omega)]
          exact hv c hc
        · have heq : y' * w + x' = y * w + x := by omega
          obtain ⟨rfl, rfl⟩ := pixel_inj w y x y' x' hx hx' heq
          refine ⟨q, hq, fun c hc => ?_⟩
          rw [getD_writeRGB store s _ q hfit _ c hc, if_pos rfl])
  exact ⟨out, hout, hl, ha, fun y x hy hx => hpix y x hx (pixel_lt w h y x hy hx)⟩

theorem nearestPixel_eq (store : ℚ → ℚ) (w : ℕ) (palette : List Color) (data : List ℚ)
    (y x : ℕ) :
    nearestPixel store w palette data y x
      = pointStep store w (fun c _ _ => nearestColor c palette) data y x := by
  simp only [nearestPixel, pointStep, Nat.mul_comm (y * w + x) 4]
  cases nearestColor (readRGB data (4 * (y * w + x))) palette <;> rfl

/-- What `nearest` returns: every pixel holds the stored image of the palette colour
nearest to its input colour. -/
theorem nearest_result (store : ℚ → ℚ) (data : List ℚ) (w h : ℕ) (palette : List Color)
    (hlen : data.length = 4 * w * h) (hne : palette ≠ []) :
    ∃ out, nearest store data w h palette = some out ∧
      out.length = data.length ∧
      (∀ p, out.getD (4 * p + 3) 0 = data.getD (4 * p + 3) 0) ∧
      ∀ y x, y < h → x < w →
        ∃ q, nearestColor (readRGB data (4 * (y * w + x))) palette = some q ∧
          ∀ c, c < 3 → out.getD (4 * (y * w + x) + c) 0 = store (q.chan c) := by
  have := pointScan store (fun c _ _ => nearestColor c palette) w h data hlen
    (fun _ _ c _ _ => nearestColor_isSome c palette hne)
  simpa only [nearest, nearestPixel_eq] using this

theorem orderedPixel_eq (store : ℚ → ℚ) (w : ℕ) (palette : List Color) (n : ℕ)
    (matrix : List (List ℕ)) (data : List ℚ) (y x : ℕ) :
    orderedPixel store w palette n matrix data y x
      = pointStep store w (orderedChoice palette n matrix) data y x := by
  simp only [orderedPixel, pointStep, orderedChoice, Nat.mul_comm (y * w + x) 4]
  split <;> simp_all

theorem orderedChoice_isSome (palette : List Color) (hne : palette ≠ []) (n : ℕ)
    (matrix : List (List ℕ)) (old : Color) (y x : ℕ) :
    ∃ q, orderedChoice palette n matrix old y x = some q := by
  have hpos : 0 < palette.length := List.length_pos.mpr hne
  unfold orderedChoice
  split
  · exact ⟨palette[0], by simp [hpos]⟩
  · exact ⟨palette[palette.length - 1], by
      rw [List.getElem?_eq_getElem (by omega)]⟩

/-- The loop of `generateBayerMatrix` exits within `fuel` passes when
`n ≤ size + fuel` and `size` is positive. -/
theorem bayerLoop_isSome (n : ℕ) : ∀ (fuel size : ℕ) (m : List (List ℕ)),
    0 < size → n ≤ size + fuel → ∃ r, bayerLoop n fuel size m = some r := by
  intro fuel
  induction fuel with
  | zero =>
    intro size m _ hle
    refine ⟨m, ?_⟩
    unfold bayerLoop
    rw [if_neg (by omega)]
  | succ fuel ih =>
    intro size m hpos hle
    unfold bayerLoop
    by_cases hlt : size < n
    · rw [if_pos hlt]
      exact ih (size * 2) (bayerDouble size m) (by omega) (by omega)
    · rw [if_neg hlt]
      exact ⟨m, rfl⟩

/-- Totality: `generateBayerMatrix` returns a matrix for every `n`. -/
theorem generateBayerMatrix_isSome (n : ℕ) : ∃ m, generateBayerMatrix n = some m := by
  obtain ⟨r, hr⟩ := bayerLoop_isSome n n 2 [[0, 2], [3, 1]] (by omega) (by omega)
  unfold generateBayerMatrix
  rw [hr]
  by_cases hlen : r.length ≠ n
  · exact ⟨_, if_pos hlen⟩
  · exact ⟨_, if_neg hlen⟩

/-- What `orderedDither` returns, given the matrix it built. -/
theorem orderedDither_result (store : ℚ → ℚ) (data : List ℚ) (w h : ℕ)
    (palette : List Color) (size : ℤ) (matrix : List (List ℕ))
    (hlen : data.length = 4 * w * h) (hne : palette ≠ [])
    (hm : generateBayerMatrix (clampSize size) = some matrix) :
    ∃ out, orderedDither store data w h palette size = some out ∧
      out.length = data.length ∧
      (∀ p, out.getD (4 * p + 3) 0 = data.getD (4 * p + 3) 0) ∧
      ∀ y x, y < h → x < w →
        ∃ q, orderedChoice palette (clampSize size) matrix
            (readRGB data (4 * (y * w + x))) y x = some q ∧
          ∀ c, c < 3 → out.getD (4 * (y * w + x) + c) 0 = store (q.chan c) := by
  have := pointScan store (orderedChoice palette (clampSize size) matrix) w h data hlen
    (fun y x c _ _ => orderedChoice_isSome palette hne _ matrix c y x)
  simpa only [orderedDither, hm, orderedPixel_eq] using this

theorem clampSize_cases (size : ℤ) :
    clampSize size = 2 ∨ clampSize size = 3 ∨ clampSize size = 4 ∨ clampSize size = 5 ∨
      clampSize size = 6 ∨ clampSize size = 7 ∨ clampSize size = 8 := by
  unfold clampSize; omega

/-! ## Error diffusion -/

theorem length_distributeStep (store : ℚ → ℚ) (x y w h : ℕ) (err : Color) (data : List ℚ)
    (e : ℤ × ℤ × ℚ) : (distributeStep store x y w h err data e).length = data.length := by
  unfold distributeStep
  by_cases hin : (x : ℤ) + e.1 ≥ 0 ∧ (x : ℤ) + e.1 < w ∧ (y : ℤ) + e.2.1 ≥ 0 ∧ (y : ℤ) + e.2.1 < h
  · simp only [if_pos hin]
    exact length_addRGB _ _ _ _ _
  · simp only [if_neg hin]

/-- The in-bounds test of `distributeError` passes exactly when the entry lands on
some pixel, whose index is then `idx / 4`. -/
theorem target_index (w h x y : ℕ) (e : ℤ × ℤ × ℚ)
    (hin : (x : ℤ) + e.1 ≥ 0 ∧ (x : ℤ) + e.1 < w ∧ (y : ℤ) + e.2.1 ≥ 0 ∧ (y : ℤ) + e.2.1 < h) :
    ∃ t : ℕ, ((((y : ℤ) + e.2.1) * w + ((x : ℤ) + e.1)) * 4).toNat = 4 * t ∧
      (t : ℤ) = ((y : ℤ) + e.2.1) * w + ((x : ℤ) + e.1) ∧ t < h * w := by
  obtain ⟨h1, h2, h3, h4⟩ := hin
  obtain ⟨nx, hnx⟩ := Int.eq_ofNat_of_zero_le h1
  obtain ⟨ny, hny⟩ := Int.eq_ofNat_of_zero_le h3
  rw [hnx] at h2
  rw [hny] at h4
  rw [hnx, hny]
  have hx : nx < w := by exact_mod_cast h2
  have hy : ny < h := by exact_mod_cast h4
  refine ⟨ny * w + nx, ?_, by push_cast; ring, pixel_lt w h ny nx hy hx⟩
  have : (((ny : ℤ) * w + nx) * 4) = ((4 * (ny * w + nx) : ℕ) : ℤ) := by push_cast; ring
  rw [this, Int.toNat_ofNat]

theorem getD_distributeStep (store : ℚ → ℚ) (x y w h : ℕ) (err : Color) (data : List ℚ)
    (e : ℤ × ℤ × ℚ) (hlen : data.length = 4 * w * h) (p k : ℕ) (hk : k < 3) :
    (distributeStep store x y w h err data e).getD (4 * p + k) 0
      = if hits w h x y e p then
          store (roundDouble (data.getD (4 * p + k) 0
            + roundDouble (err.chan k * roundDouble e.2.2)))
        else data.getD (4 * p + k) 0 := by
  unfold distributeStep
  by_cases hin : (x : ℤ) + e.1 ≥ 0 ∧ (x : ℤ) + e.1 < w ∧ (y : ℤ) + e.2.1 ≥ 0 ∧ (y : ℤ) + e.2.1 < h
  · obtain ⟨t, ht, htz, htlt⟩ := target_index w h x y e hin
    simp only [if_pos hin, ht]
    have hfit : 4 * t + 3 < data.length + 1 := by
      rw [hlen]
      have : 4 * w * h = 4 * (h * w) := by ring
      omega
    rw [getD_addRGB store data t err (roundDouble e.2.2) hfit p k hk]
    have hiff : hits w h x y e p ↔ p = t := by
      unfold hits
      constructor
      · rintro ⟨_, _, _, _, hp⟩
        have : (p : ℤ) = (t : ℤ) := by rw [hp, htz]
        exact_mod_cast this
      · rintro rfl
        exact ⟨hin.1, hin.2.1, hin.2.2.1, hin.2.2.2, htz⟩
    by_cases hp : p = t
    · rw [if_pos hp, if_pos (hiff.mpr hp)]
    · rw [if_neg hp, if_neg (fun hh => hp (hiff.mp hh))]
  · have hno : ¬ hits w h x y e p := by
      unfold hits
      rintro ⟨h1, h2, h3, h4, _⟩
      exact hin ⟨h1, h2, h3, h4⟩
    rw [if_neg hin, if_neg hno]

theorem getD_distributeStep_alpha (store : ℚ → ℚ) (x y w h : ℕ) (err : Color)
    (data : List ℚ) (e : ℤ × ℤ × ℚ) (p : ℕ) :
    (distributeStep store x y w h err data e).getD (4 * p + 3) 0 = data.getD (4 * p + 3) 0 := by
  unfold distributeStep
  by_cases hin : (x : ℤ) + e.1 ≥ 0 ∧ (x : ℤ) + e.1 < w ∧ (y : ℤ) + e.2.1 ≥ 0 ∧ (y : ℤ) + e.2.1 < h
  · obtain ⟨t, ht, _, _⟩ := target_index w h x y e hin
    simp only [if_pos hin, ht]
    exact getD_addRGB_alpha store data t err (roundDouble e.2.2) p
  · rw [if_neg hin]

theorem length_distributeError (store : ℚ → ℚ) (x y w h : ℕ) (err : Color)
    (pattern : List (ℤ × ℤ × ℚ)) : ∀ data : List ℚ,
    (distributeError store data x y w h err pattern).length = data.length := by
  induction pattern with
  | nil => intro data; rfl
  | cons e es ih =>
    intro data
    simp only [distributeError, List.foldl_cons] at ih ⊢
    rw [ih, length_distributeStep]

theorem getD_distributeError (store : ℚ → ℚ) (x y w h : ℕ) (err : Color)
    (pattern : List (ℤ × ℤ × ℚ)) (p k : ℕ) (hk : k < 3) : ∀ data : List ℚ,
    data.length = 4 * w * h →
    (distributeError store data x y w h err pattern).getD (4 * p + k) 0
      = received store w h x y err pattern p k (data.getD (4 * p + k) 0) := by
  induction pattern with
  | nil => intro data _; rfl
  | cons e es ih =>
    intro data hlen
    simp only [distributeError, received, List.foldl_cons] at ih ⊢
    rw [ih _ (by rw [length_distributeStep, hlen]), getD_distributeStep store x y w h err data e hlen p k hk]

theorem getD_distributeError_alpha (store : ℚ → ℚ) (x y w h : ℕ) (err : Color)
    (pattern : List (ℤ × ℤ × ℚ)) (p : ℕ) : ∀ data : List ℚ,
    (distributeError store data x y w h err pattern).getD (4 * p + 3) 0
      = data.getD (4 * p + 3) 0 := by
  induction pattern with
  | nil => intro data; rfl
  | cons e es ih =>
    intro data
    simp only [distributeError, List.foldl_cons] at ih ⊢
    rw [ih, getD_distributeStep_alpha]

/-- The effect of one step of `applyErrorDiffusion` on every cell of the buffer. -/
theorem diffusePixel_result (store : ℚ → ℚ) (w h : ℕ) (palette : List Color)
    (pattern : List (ℤ × ℤ × ℚ)) (errDivisor : ℚ) (data : List ℚ) (y x : ℕ)
    (hlen : data.length = 4 * w * h) (hy : y < h) (hx : x < w) (hne : palette ≠ []) :
    ∃ q out, nearestColor (readRGB data (4 * (y * w + x))) palette = some q ∧
      diffusePixel store w h palette pattern errDivisor data y x = some out ∧
      out.length = data.length ∧
      (∀ p, out.getD (4 * p + 3) 0 = data.getD (4 * p + 3) 0) ∧
      ∀ p k, k < 3 → out.getD (4 * p + k) 0
        = received store w h x y
            (quantError (readRGB data (4 * (y * w + x))) q errDivisor) pattern p k
            (if p = y * w + x then store (q.chan k) else data.getD (4 * p + k) 0) := by
  obtain ⟨q, hq⟩ := nearestColor_isSome (readRGB data (4 * (y * w + x))) palette hne
  have hfit : 4 * (y * w + x) + 3 < data.length + 1 := by
    have := pixel_lt w h y x hy hx
    rw [hlen]
    have : 4 * w * h = 4 * (h * w) := by ring
    omega
  refine ⟨q, distributeError store (writeRGB store data (4 * (y * w + x)) q) x y w h
    (quantError (readRGB data (4 * (y * w + x))) q errDivisor) pattern, hq, ?_, ?_, ?_, ?_⟩
  · simp only [diffusePixel, Nat.mul_comm (y * w + x) 4, hq]
    rfl
  · rw [length_distributeError, length_writeRGB]
  · intro p
    rw [getD_distributeError_alpha, getD_writeRGB_alpha]
  · intro p k hk
    rw [getD_distributeError store x y w h _ pattern p k hk _
      (by rw [length_writeRGB, hlen]), getD_writeRGB store data _ q hfit p k hk]

theorem storesBytes_id : StoresBytes id := fun _ _ => rfl

theorem storesBytes_toUint8Clamp : StoresBytes toUint8Clamp := by
  intro v ⟨hint, h0, h255⟩
  unfold toUint8Clamp
  by_cases hz : v ≤ 0
  · rw [if_pos hz]; linarith
  · rw [if_neg hz]
    by_cases hb : 255 ≤ v
    · rw [if_pos hb]; linarith
    · rw [if_neg hb]
      have hlt : v - ((⌊v⌋ : ℤ) : ℚ) < 1 / 2 := by rw [hint]; norm_num
      simp only [if_pos hlt]
      exact hint

theorem keeps_of_bytes (store : ℚ → ℚ) (palette : List Color) (hs : StoresBytes store)
    (hpal : ∀ c ∈ palette, ByteColor c) : Keeps store palette := by
  intro c hc
  obtain ⟨hr, hg, hb⟩ := hpal c hc
  exact ⟨hs _ hr, hs _ hg, hs _ hb⟩

theorem keeps_chan (store : ℚ → ℚ) (palette : List Color) (hk : Keeps store palette)
    (c : Color) (hc : c ∈ palette) (k : ℕ) : store (c.chan k) = c.chan k := by
  obtain ⟨hr, hg, hb⟩ := hk c hc
  match k with
  | 0 => exact hr
  | 1 => exact hg
  | _ + 2 => exact hb

theorem received_of_no_hits (store : ℚ → ℚ) (w h x y : ℕ) (err : Color) (p k : ℕ) :
    ∀ (pattern : List (ℤ × ℤ × ℚ)) (v0 : ℚ), (∀ e ∈ pattern, ¬ hits w h x y e p) →
      received store w h x y err pattern p k v0 = v0 := by
  intro pattern
  induction pattern with
  | nil => intro v0 _; rfl
  | cons e es ih =>
    intro v0 hno
    simp only [received, List.foldl_cons] at ih ⊢
    rw [if_neg (hno e (List.mem_cons_self _ _))]
    exact ih v0 (fun e' he' => hno e' (List.mem_cons_of_mem _ he'))

/-- A causal entry never lands on the current pixel or on one already visited. -/
theorem not_hits_of_causal (w h x y : ℕ) (e : ℤ × ℤ × ℚ) (p : ℕ) (hx : x < w)
    (hc : 0 < e.2.1 ∨ (e.2.1 = 0 ∧ 0 < e.1)) (hp : p ≤ y * w + x) :
    ¬ hits w h x y e p := by
  rintro ⟨h1, _, _, _, h5⟩
  have hp' : (p : ℤ) ≤ (y : ℤ) * w + x := by exact_mod_cast hp
  have hx' : (x : ℤ) < w := by exact_mod_cast hx
  rcases hc with hdy | ⟨hdy, hdx⟩
  · have hmul : (1 : ℤ) * w ≤ e.2.1 * w :=
      Int.mul_le_mul_of_nonneg_right hdy (by omega)
    have hexp : ((y : ℤ) + e.2.1) * w = (y : ℤ) * w + e.2.1 * w := by ring
    rw [hexp] at h5
    omega
  · rw [hdy] at h5
    simp only [add_zero] at h5
    omega

/-- Frame of a whole diffusion pass: it returns, and the length and every alpha cell
are as before. -/
theorem applyErrorDiffusion_frame (store : ℚ → ℚ) (data : List ℚ) (w h : ℕ)
    (palette : List Color) (pattern : List (ℤ × ℤ × ℚ)) (errDivisor : ℚ)
    (hlen : data.length = 4 * w * h) (hne : palette ≠ []) :
    ∃ out, applyErrorDiffusion store data w h palette pattern errDivisor = some out ∧
      out.length = data.length ∧
      ∀ p, out.getD (4 * p + 3) 0 = data.getD (4 * p + 3) 0 := by
  obtain ⟨out, hout, hl, ha⟩ := raster_inv
    (fun s y x => diffusePixel store w h palette pattern errDivisor s y x)
    (fun _ s => s.length = data.length ∧
      ∀ p, s.getD (4 * p + 3) 0 = data.getD (4 * p + 3) 0)
    w h data ⟨rfl, fun _ => rfl⟩
    (by
      intro y x s hy hx ⟨hl, ha⟩
      obtain ⟨q, out, _, ho, hol, hoa, _⟩ := diffusePixel_result store w h palette pattern
        errDivisor s y x (by rw [hl, hlen]) hy hx hne
      exact ⟨out, ho, by rw [hol, hl], fun p => by rw [hoa, ha]⟩)
  exact ⟨out, hout, hl, ha⟩

/-- With a causal kernel and a buffer that keeps the palette colours, a whole
diffusion pass leaves a palette colour in every pixel. -/
theorem applyErrorDiffusion_palette (store : ℚ → ℚ) (data : List ℚ) (w h : ℕ)
    (palette : List Color) (pattern : List (ℤ × ℤ × ℚ)) (errDivisor : ℚ)
    (hlen : data.length = 4 * w * h) (hne : palette ≠ []) (hc : Causal pattern)
    (hk : Keeps store palette) :
    ∃ out, applyErrorDiffusion store data w h palette pattern errDivisor = some out ∧
      ∀ p, p < h * w → ∃ c ∈ palette, ∀ k, k < 3 → out.getD (4 * p + k) 0 = c.chan k := by
  obtain ⟨out, hout, _, hp⟩ := raster_inv
    (fun s y x => diffusePixel store w h palette pattern errDivisor s y x)
    (fun n s => s.length = data.length ∧
      ∀ p, p < n → ∃ c ∈ palette, ∀ k, k < 3 → s.getD (4 * p + k) 0 = c.chan k)
    w h data ⟨rfl, fun p hp => absurd hp (Nat.not_lt_zero _)⟩
    (by
      intro y x s hy hx ⟨hl, hdone⟩
      obtain ⟨q, out, hq, ho, hol, _, hcell⟩ := diffusePixel_result store w h palette pattern
        errDivisor s y x (by rw [hl, hlen]) hy hx hne
      refine ⟨out, ho, by rw [hol, hl], ?_⟩
      intro p hp
      have hno : ∀ e ∈ pattern, ¬ hits w h x y e p := fun e he =>
        not_hits_of_causal w h x y e p hx (hc e he) (by omega)
      rcases Nat.lt_or_ge p (y * w + x) with hlt | hge
      · obtain ⟨c, hcm, hcv⟩ := hdone p hlt
        refine ⟨c, hcm, fun k hk3 => ?_⟩
        rw [hcell p k hk3, received_of_no_hits _ _ _ _ _ _ _ _ _ _ hno, if_neg (by omega)]
        exact hcv k hk3
      · have heq : p = y * w + x := by omega
        refine ⟨q, nearestColor_mem _ q palette hq, fun k hk3 => ?_⟩
        rw [hcell p k hk3, received_of_no_hits _ _ _ _ _ _ _ _ _ _ hno, if_pos heq]
        exact keeps_chan store palette hk q (nearestColor_mem _ q palette hq) k)
  exact ⟨out, hout, hp⟩

/-! ## Results: colour matcher, palette membership, frame, idempotence -/

/-- C1. For every colour and every non-empty palette, `nearestColor` returns the
palette entry at the smallest index whose squared RGB distance to the colour is
minimal: the result `q` is the entry at some index `i`, no entry of the palette is
strictly closer than `q`, and every entry before index `i` is strictly farther (so an
entry at equal distance that comes later never replaces an earlier one). -/
theorem nearestColor_first_minimum (color : Color) (palette : List Color)
    (hne : palette ≠ []) :
    ∃ i q, nearestColor color palette = some q ∧ palette[i]? = some q ∧
      (∀ (j : ℕ) (c : Color), palette[j]? = some c →
        dist color q.r q.g q.b ≤ dist color c.r c.g c.b) ∧
      (∀ (j : ℕ) (c : Color), j < i → palette[j]? = some c →
        dist color q.r q.g q.b < dist color c.r c.g c.b) := by
  obtain ⟨i, q, hq, hi, hmin, hfirst⟩ := nearestColor_firstMin color palette hne
  exact ⟨i, q, hq, hi, hmin, hfirst⟩

/-- C1 at a tie: `(1, 0, 0)` is at distance 1 from both `(0, 0, 0)` and `(2, 0, 0)`,
and the earlier entry is returned. -/
theorem nearestColor_first_minimum_witness :
    nearestColor ⟨1, 0, 0⟩ [⟨0, 0, 0⟩, ⟨2, 0, 0⟩] = some ⟨0, 0, 0⟩ ∧
    ∃ i q, nearestColor ⟨1, 0, 0⟩ [⟨0, 0, 0⟩, ⟨2, 0, 0⟩] = some q ∧
      [(⟨0, 0, 0⟩ : Color), ⟨2, 0, 0⟩][i]? = some q ∧
      (∀ (j : ℕ) (c : Color), [(⟨0, 0, 0⟩ : Color), ⟨2, 0, 0⟩][j]? = some c →
        dist ⟨1, 0, 0⟩ q.r q.g q.b ≤ dist ⟨1, 0, 0⟩ c.r c.g c.b) ∧
      (∀ (j : ℕ) (c : Color), j < i → [(⟨0, 0, 0⟩ : Color), ⟨2, 0, 0⟩][j]? = some c →
        dist ⟨1, 0, 0⟩ q.r q.g q.b < dist ⟨1, 0, 0⟩ c.r c.g c.b) :=
  ⟨by decide!, nearestColor_first_minimum ⟨1, 0, 0⟩ [⟨0, 0, 0⟩, ⟨2, 0, 0⟩] (by simp)⟩

/-- The three colour cells of a pixel in the `r`, `g`, `b` form. -/
theorem rgb_of_chan (out : List ℚ) (p : ℕ) (c : Color)
    (h : ∀ k, k < 3 → out.getD (4 * p + k) 0 = c.chan k) :
    out.getD (4 * p) 0 = c.r ∧ out.getD (4 * p + 1) 0 = c.g ∧ out.getD (4 * p + 2) 0 = c.b :=
  ⟨h 0 (by omega), h 1 (by omega), h 2 (by omega)⟩

/-- A whole pass of `nearest` leaves a palette colour in every pixel. -/
theorem nearest_palette (store : ℚ → ℚ) (data : List ℚ) (w h : ℕ) (palette : List Color)
    (hlen : data.length = 4 * w * h) (hne : palette ≠ []) (hk : Keeps store palette) :
    ∃ out, nearest store data w h palette = some out ∧
      ∀ p, p < h * w → ∃ c ∈ palette, ∀ k, k < 3 → out.getD (4 * p + k) 0 = c.chan k := by
  obtain ⟨out, hout, _, _, hpix⟩ := nearest_result store data w h palette hlen hne
  refine ⟨out, hout, fun p hp => ?_⟩
  obtain ⟨y, x, hy, hx, rfl⟩ := pixel_coords w h p hp
  obtain ⟨q, hq, hv⟩ := hpix y x hy hx
  have hmem := nearestColor_mem _ q palette hq
  exact ⟨q, hmem, fun k hk3 => by rw [hv k hk3, keeps_chan store palette hk q hmem k]⟩

/-- C2. For every width, height, buffer of length `4 * w * h` and non-empty palette of
integer colours in `[0, 255]`, on a buffer that stores 8-bit integers unchanged (an
ordinary array, or the `Uint8ClampedArray` of the canvas): each of `floydSteinberg`,
`atkinson`, `jarvisJudiceNinke`, `stucki`, `burkes`, `sierra`, `sierraLite` and
`nearest` returns, and afterwards the RGB triple of every pixel equals some entry of
the palette; at every step, no entry of any of the seven kernels lands on the current
pixel or on a pixel visited before it. -/
theorem algorithms_output_in_palette (store : ℚ → ℚ) (hs : StoresBytes store)
    (data : List ℚ) (w h : ℕ) (palette : List Color)
    (hlen : data.length = 4 * w * h) (hne : palette ≠ [])
    (hpal : ∀ c ∈ palette, ByteColor c) :
    (∀ alg ∈ [floydSteinberg store, atkinson store, jarvisJudiceNinke store, stucki store,
        burkes store, sierra store, sierraLite store, nearest store],
      ∃ out, alg data w h palette = some out ∧
        ∀ p, p < w * h → ∃ c ∈ palette,
          out.getD (4 * p) 0 = c.r ∧ out.getD (4 * p + 1) 0 = c.g ∧
            out.getD (4 * p + 2) 0 = c.b) ∧
    (∀ pattern ∈ [floydSteinbergPattern, atkinsonPattern, jarvisJudiceNinkePattern,
        stuckiPattern, burkesPattern, sierraPattern, sierraLitePattern],
      ∀ y x p, x < w → p ≤ y * w + x → ∀ e ∈ pattern, ¬ hits w h x y e p) := by
  refine ⟨?_, ?_⟩
  swap
  · intro pattern hpat y x p hx hp e he
    have hc : Causal pattern := by
      simp only [List.mem_cons, List.mem_singleton, List.not_mem_nil, or_false] at hpat
      rcases hpat with rfl | rfl | rfl | rfl | rfl | rfl | rfl <;> decide
    exact not_hits_of_causal w h x y e p hx (hc e he) hp
  have hk := keeps_of_bytes store palette hs hpal
  have key : ∀ o : Option (List ℚ),
      (∃ out, o = some out ∧ ∀ p, p < h * w → ∃ c ∈ palette,
        ∀ k, k < 3 → out.getD (4 * p + k) 0 = c.chan k) →
      ∃ out, o = some out ∧ ∀ p, p < w * h → ∃ c ∈ palette,
        out.getD (4 * p) 0 = c.r ∧ out.getD (4 * p + 1) 0 = c.g ∧
          out.getD (4 * p + 2) 0 = c.b := by
    rintro o ⟨out, ho, hp⟩
    refine ⟨out, ho, fun p hlt => ?_⟩
    obtain ⟨c, hc, hv⟩ := hp p (by rwa [Nat.mul_comm])
    exact ⟨c, hc, rgb_of_chan out p c hv⟩
  intro alg halg
  simp only [List.mem_cons, List.mem_singleton, List.not_mem_nil, or_false] at halg
  rcases halg with rfl | rfl | rfl | rfl | rfl | rfl | rfl | rfl
  · exact key _ (applyErrorDiffusion_palette store data w h palette _ 1 hlen hne (by decide) hk)
  · exact key _ (applyErrorDiffusion_palette store data w h palette _ 8 hlen hne (by decide) hk)
  · exact key _ (applyErrorDiffusion_palette store data w h palette _ 1 hlen hne (by decide) hk)
  · exact key _ (applyErrorDiffusion_palette store data w h palette _ 1 hlen hne (by decide) hk)
  · exact key _ (applyErrorDiffusion_palette store data w h palette _ 1 hlen hne (by decide) hk)
  · exact key _ (applyErrorDiffusion_palette store data w h palette _ 1 hlen hne (by decide) hk)
  · exact key _ (applyErrorDiffusion_palette store data w h palette _ 1 hlen hne (by decide) hk)
  · exact key _ (nearest_palette store data w h palette hlen hne hk)

/-- C2 on the buffer of the canvas (`toUint8Clamp`): the 2 by 1 image
`[100, 100, 100, 255, 100, 100, 100, 255]` with the black-and-white palette;
Floyd–Steinberg leaves black, then white. -/
theorem algorithms_output_in_palette_witness :
    floydSteinberg toUint8Clamp [100, 100, 100, 255, 100, 100, 100, 255] 2 1
        [⟨0, 0, 0⟩, ⟨255, 255, 255⟩] = some [0, 0, 0, 255, 255, 255, 255, 255] ∧
    (∀ alg ∈ [floydSteinberg toUint8Clamp, atkinson toUint8Clamp,
        jarvisJudiceNinke toUint8Clamp, stucki toUint8Clamp, burkes toUint8Clamp,
        sierra toUint8Clamp, sierraLite toUint8Clamp, nearest toUint8Clamp],
      ∃ out, alg [100, 100, 100, 255, 100, 100, 100, 255] 2 1
          [⟨0, 0, 0⟩, ⟨255, 255, 255⟩] = some out ∧
        ∀ p, p < 2 * 1 → ∃ c ∈ [(⟨0, 0, 0⟩ : Color), ⟨255, 255, 255⟩],
          out.getD (4 * p) 0 = c.r ∧ out.getD (4 * p + 1) 0 = c.g ∧
            out.getD (4 * p + 2) 0 = c.b) ∧
    (∀ pattern ∈ [floydSteinbergPattern, atkinsonPattern, jarvisJudiceNinkePattern,
        stuckiPattern, burkesPattern, sierraPattern, sierraLitePattern],
      ∀ y x p, x < 2 → p ≤ y * 2 + x → ∀ e ∈ pattern, ¬ hits 2 1 x y e p) :=
  ⟨by decide!,
   algorithms_output_in_palette toUint8Clamp storesBytes_toUint8Clamp
    [100, 100, 100, 255, 100, 100, 100, 255] 2 1 [⟨0, 0, 0⟩, ⟨255, 255, 255⟩]
    (by decide) (by simp) (by decide!)⟩

/-- C3. For every buffer of length `4 * w * h`, every non-empty palette and every
integer `size`, whatever conversion the buffer applies on assignment: each of the
nine algorithms (`nearest`, `orderedDither` and the seven diffusion algorithms)
returns a buffer of the same length in which the cell at index `4 * k + 3` holds the
value it held before, for every pixel `k`. -/
theorem algorithms_preserve_alpha_and_length (store : ℚ → ℚ) (data : List ℚ) (w h : ℕ)
    (palette : List Color) (size : ℤ)
    (hlen : data.length = 4 * w * h) (hne : palette ≠ []) :
    ∀ alg ∈ [nearest store, fun d w h p => orderedDither store d w h p size,
        floydSteinberg store, atkinson store, jarvisJudiceNinke store, stucki store,
        burkes store, sierra store, sierraLite store],
      ∃ out, alg data w h palette = some out ∧ out.length = data.length ∧
        ∀ k, out.getD (4 * k + 3) 0 = data.getD (4 * k + 3) 0 := by
  intro alg halg
  simp only [List.mem_cons, List.mem_singleton, List.not_mem_nil, or_false] at halg
  rcases halg with rfl | rfl | rfl | rfl | rfl | rfl | rfl | rfl | rfl
  · obtain ⟨out, ho, hl, ha, _⟩ := nearest_result store data w h palette hlen hne
    exact ⟨out, ho, hl, ha⟩
  · obtain ⟨m, hm⟩ := generateBayerMatrix_isSome (clampSize size)
    obtain ⟨out, ho, hl, ha, _⟩ :=
      orderedDither_result store data w h palette size m hlen hne hm
    exact ⟨out, ho, hl, ha⟩
  · exact applyErrorDiffusion_frame store data w h palette _ 1 hlen hne
  · exact applyErrorDiffusion_frame store data w h palette _ 8 hlen hne
  · exact applyErrorDiffusion_frame store data w h palette _ 1 hlen hne
  · exact applyErrorDiffusion_frame store data w h palette _ 1 hlen hne
  · exact applyErrorDiffusion_frame store data w h palette _ 1 hlen hne
  · exact applyErrorDiffusion_frame store data w h palette _ 1 hlen hne
  · exact applyErrorDiffusion_frame store data w h palette _ 1 hlen hne

/-- C3 on the buffer of the canvas (`toUint8Clamp`): a 2 by 1 image with alpha bytes 7
and 9, ordered dither of size 4; Atkinson turns both pixels black and keeps both alpha
bytes. -/
theorem algorithms_preserve_alpha_and_length_witness :
    atkinson toUint8Clamp [100, 100, 100, 7, 100, 100, 100, 9] 2 1
        [⟨0, 0, 0⟩, ⟨255, 255, 255⟩] = some [0, 0, 0, 7, 0, 0, 0, 9] ∧
    ∀ alg ∈ [nearest toUint8Clamp, fun d w h p => orderedDither toUint8Clamp d w h p 4,
        floydSteinberg toUint8Clamp, atkinson toUint8Clamp,
        jarvisJudiceNinke toUint8Clamp, stucki toUint8Clamp, burkes toUint8Clamp,
        sierra toUint8Clamp, sierraLite toUint8Clamp],
      ∃ out, alg [100, 100, 100, 7, 100, 100, 100, 9] 2 1
          [⟨0, 0, 0⟩, ⟨255, 255, 255⟩] = some out ∧
        out.length = [(100 : ℚ), 100, 100, 7, 100, 100, 100, 9].length ∧
        ∀ k, out.getD (4 * k + 3) 0
          = [(100 : ℚ), 100, 100, 7, 100, 100, 100, 9].getD (4 * k + 3) 0 :=
  ⟨by decide!,
   algorithms_preserve_alpha_and_length toUint8Clamp [100, 100, 100, 7, 100, 100, 100, 9]
    2 1 [⟨0, 0, 0⟩, ⟨255, 255, 255⟩] 4 (by decide) (by simp)⟩

/-- C4. For every buffer of length `4 * w * h` and every non-empty palette of integer
colours in `[0, 255]`, on a buffer that stores 8-bit integers unchanged: `nearest`
returns a buffer `out`, and `nearest` applied to `out` returns `out` again. -/
theorem nearest_idempotent (store : ℚ → ℚ) (hs : StoresBytes store) (data : List ℚ)
    (w h : ℕ) (palette : List Color) (hlen : data.length = 4 * w * h)
    (hne : palette ≠ []) (hpal : ∀ c ∈ palette, ByteColor c) :
    ∃ out, nearest store data w h palette = some out ∧
      nearest store out w h palette = some out := by
  have hk := keeps_of_bytes store palette hs hpal
  obtain ⟨o1, h1, l1, a1, p1⟩ := nearest_result store data w h palette hlen hne
  obtain ⟨o2, h2, l2, a2, p2⟩ := nearest_result store o1 w h palette (by rw [l1, hlen]) hne
  refine ⟨o1, h1, ?_⟩
  rw [h2]
  congr 1
  apply eq_of_getD o2 o1 l2
  intro j hj
  have hj' : j < 4 * (h * w) := by
    rw [l2, l1, hlen] at hj
    have : 4 * w * h = 4 * (h * w) := by ring
    omega
  have hsplit : j = 4 * (j / 4) + j % 4 := (Nat.div_add_mod j 4).symm
  have hmod : j % 4 < 4 := Nat.mod_lt _ (by omega)
  rcases Nat.lt_or_ge (j % 4) 3 with hc | hc
  · obtain ⟨y, x, hy, hx, hp⟩ := pixel_coords w h (j / 4) (by omega)
    obtain ⟨q1, hq1, hv1⟩ := p1 y x hy hx
    obtain ⟨q2, hq2, hv2⟩ := p2 y x hy hx
    have hm1 := nearestColor_mem _ q1 palette hq1
    have hread : readRGB o1 (4 * (y * w + x)) = q1 := by
      have e0 := hv1 0 (by omega)
      have e1 := hv1 1 (by omega)
      have e2 := hv1 2 (by omega)
      rw [keeps_chan store palette hk q1 hm1] at e0 e1 e2
      simp only [readRGB]
      rw [show 4 * (y * w + x) = 4 * (y * w + x) + 0 from rfl, e0, e1, e2]
      rfl
    rw [hread, nearestColor_of_mem q1 palette hm1] at hq2
    cases hq2
    rw [hsplit, hp, hv2 _ hc, hv1 _ hc]
  · have h3 : j % 4 = 3 := by omega
    rw [hsplit, h3, a2]

/-- C4 on the example of the specification: the 1 by 1 buffer `[200, 200, 200, 255]`
with the black-and-white palette becomes `[255, 255, 255, 255]` and stays so. -/
theorem nearest_idempotent_witness :
    nearest toUint8Clamp [200, 200, 200, 255] 1 1 [⟨0, 0, 0⟩, ⟨255, 255, 255⟩]
      = some [255, 255, 255, 255] ∧
    nearest toUint8Clamp [255, 255, 255, 255] 1 1 [⟨0, 0, 0⟩, ⟨255, 255, 255⟩]
      = some [255, 255, 255, 255] ∧
    ∃ out, nearest toUint8Clamp [200, 200, 200, 255] 1 1 [⟨0, 0, 0⟩, ⟨255, 255, 255⟩]
        = some out ∧
      nearest toUint8Clamp out 1 1 [⟨0, 0, 0⟩, ⟨255, 255, 255⟩] = some out :=
  ⟨by decide!, by decide!,
   nearest_idempotent toUint8Clamp storesBytes_toUint8Clamp [200, 200, 200, 255] 1 1
    [⟨0, 0, 0⟩, ⟨255, 255, 255⟩] (by decide) (by simp) (by decide!)⟩

/-! ## Results: the Bayer matrix -/

/-- From a check on the option `generateBayerMatrix` returns to a statement about the
matrix it returns. -/
theorem exists_of_forall_mem {α : Type} (o : Option α) (P : α → Prop)
    (hs : o.isSome = true) (h : ∀ m ∈ o, P m) : ∃ m, o = some m ∧ P m := by
  cases o with
  | none => simp at hs
  | some m => exact ⟨m, rfl, h m rfl⟩

/-- C5. For `n` equal to 2, 4 or 8, `generateBayerMatrix n` returns a matrix of `n` rows
of `n` entries in which each integer of `[0, n * n - 1]` occurs exactly once. -/
theorem generateBayerMatrix_pow2_permutation (n : ℕ) (hn : n = 2 ∨ n = 4 ∨ n = 8) :
    ∃ m, generateBayerMatrix n = some m ∧ SquareOfSide n m ∧
      ∀ v, v < n * n → m.flatten.count v = 1 := by
  rcases hn with rfl | rfl | rfl
  · exact exists_of_forall_mem _ _ (by decide) (by decide)
  · exact exists_of_forall_mem _ _ (by decide) (by decide)
  · exact exists_of_forall_mem _ _ (by decide) (by decide)

/-- C5 at `n = 4`. -/
theorem generateBayerMatrix_pow2_permutation_witness :
    generateBayerMatrix 4
      = some [[0, 8, 2, 10], [12, 4, 14, 6], [3, 11, 1, 9], [15, 7, 13, 5]] ∧
    ∃ m, generateBayerMatrix 4 = some m ∧ SquareOfSide 4 m ∧
      ∀ v, v < 4 * 4 → m.flatten.count v = 1 :=
  ⟨by decide, generateBayerMatrix_pow2_permutation 4 (Or.inr (Or.inl rfl))⟩

/-- C6 fails at `matrixSize = 3`: the matrix `orderedDither` builds is the top-left 3 by
3 block of the 4 by 4 matrix; it contains 12 and is not a permutation of `[0, 8]`. -/
theorem generateBayerMatrix_three_not_permutation :
    generateBayerMatrix (clampSize 3) = some [[0, 8, 2], [12, 4, 14], [3, 11, 1]] ∧
    ¬ ∃ m, generateBayerMatrix (clampSize 3) = some m ∧ SquareOfSide 3 m ∧
        m.flatten.Perm (List.range (3 * 3)) := by
  refine ⟨by decide, ?_⟩
  rintro ⟨m, hm, _, hperm⟩
  have h3 : generateBayerMatrix (clampSize 3) = some [[0, 8, 2], [12, 4, 14], [3, 11, 1]] := by
    decide
  rw [h3] at hm
  cases hm
  revert hperm
  decide

/-- C6, amended. For every integer `matrixSize`, with `n` its clamp to `[2, 8]`,
`generateBayerMatrix n` returns a square matrix of side `n` whose entries are pairwise
distinct; they are a permutation of `[0, n * n - 1]` when `n` is 2, 4 or 8, and for the
sides 3, 5, 6 and 7 the matrix holds an entry that is `n * n` or more, so its entries
are not such a permutation.  The clamp `n` is 2 for a `matrixSize` below 2,
`matrixSize` itself from 2 to 8, and 8 for a `matrixSize` above 8. -/
theorem generateBayerMatrix_clamped_shape (matrixSize : ℤ) :
    ∃ m, generateBayerMatrix (clampSize matrixSize) = some m ∧
      SquareOfSide (clampSize matrixSize) m ∧ m.flatten.Nodup ∧
      ((clampSize matrixSize = 2 ∨ clampSize matrixSize = 4 ∨ clampSize matrixSize = 8) →
        m.flatten.Perm (List.range (clampSize matrixSize * clampSize matrixSize))) ∧
      (¬ (clampSize matrixSize = 2 ∨ clampSize matrixSize = 4 ∨ clampSize matrixSize = 8) →
        ∃ v ∈ m.flatten, clampSize matrixSize * clampSize matrixSize ≤ v) ∧
      (matrixSize < 2 → clampSize matrixSize = 2) ∧
      (2 ≤ matrixSize → matrixSize ≤ 8 → (clampSize matrixSize : ℤ) = matrixSize) ∧
      (8 < matrixSize → clampSize matrixSize = 8) := by
  have pins : (matrixSize < 2 → clampSize matrixSize = 2) ∧
      (2 ≤ matrixSize → matrixSize ≤ 8 → (clampSize matrixSize : ℤ) = matrixSize) ∧
      (8 < matrixSize → clampSize matrixSize = 8) :=
    ⟨fun h => by unfold clampSize; omega, fun h1 h2 => by unfold clampSize; omega,
     fun h => by unfold clampSize; omega⟩
  have shape : ∃ m, generateBayerMatrix (clampSize matrixSize) = some m ∧
      SquareOfSide (clampSize matrixSize) m ∧ m.flatten.Nodup ∧
      ((clampSize matrixSize = 2 ∨ clampSize matrixSize = 4 ∨ clampSize matrixSize = 8) →
        m.flatten.Perm (List.range (clampSize matrixSize * clampSize matrixSize))) ∧
      (¬ (clampSize matrixSize = 2 ∨ clampSize matrixSize = 4 ∨ clampSize matrixSize = 8) →
        ∃ v ∈ m.flatten, clampSize matrixSize * clampSize matrixSize ≤ v) := by
    rcases clampSize_cases matrixSize with h | h | h | h | h | h | h
    all_goals
      rw [h]
      exact exists_of_forall_mem _ _ (by decide) (by decide)
  obtain ⟨m, h1, h2, h3, h4, h5⟩ := shape
  exact ⟨m, h1, h2, h3, h4, h5, pins⟩

/-- When `2 ^ k < n`, every power of two that is at least `n` is at least
`2 ^ (k + 1)`. -/
theorem pow_two_least (n k : ℕ) (hlow : 2 ^ k < n) :
    ∀ j, n ≤ 2 ^ j → 2 ^ (k + 1) ≤ 2 ^ j := by
  intro j hj
  have hkj : k < j := (Nat.pow_lt_pow_iff_right (by omega : 1 < 2)).mp (by omega)
  exact Nat.pow_le_pow_right (by omega) hkj

/-- C7. For every `n` in `[2, 8]`, `generateBayerMatrix n` returns the top-left `n` by
`n` block of the specification's matrix `B_p`, where `p = 2 ^ (k + 1)` is the smallest
power of two with `n ≤ p`. -/
theorem generateBayerMatrix_refines_spec (n : ℕ) (h2 : 2 ≤ n) (h8 : n ≤ 8) :
    ∃ k, n ≤ 2 ^ (k + 1) ∧ (∀ j, n ≤ 2 ^ j → 2 ^ (k + 1) ≤ 2 ^ j) ∧
      (specBayer k).length = 2 ^ (k + 1) ∧
      generateBayerMatrix n = some (topLeft n (specBayer k)) := by
  interval_cases n
  · exact ⟨0, by decide, pow_two_least 2 0 (by decide), by decide, by decide⟩
  · exact ⟨1, by decide, pow_two_least 3 1 (by decide), by decide, by decide⟩
  · exact ⟨1, by decide, pow_two_least 4 1 (by decide), by decide, by decide⟩
  · exact ⟨2, by decide, pow_two_least 5 2 (by decide), by decide, by decide⟩
  · exact ⟨2, by decide, pow_two_least 6 2 (by decide), by decide, by decide⟩
  · exact ⟨2, by decide, pow_two_least 7 2 (by decide), by decide, by decide⟩
  · exact ⟨2, by decide, pow_two_least 8 2 (by decide), by decide, by decide⟩

/-- C7 at `n = 4`: the first row of `generateBayerMatrix 4` is `[0, 8, 2, 10]`. -/
theorem generateBayerMatrix_refines_spec_witness :
    (generateBayerMatrix 4).map (fun m => m.head?) = some (some [0, 8, 2, 10]) ∧
    ∃ k, 4 ≤ 2 ^ (k + 1) ∧ (∀ j, 4 ≤ 2 ^ j → 2 ^ (k + 1) ≤ 2 ^ j) ∧
      (specBayer k).length = 2 ^ (k + 1) ∧
      generateBayerMatrix 4 = some (topLeft 4 (specBayer k)) :=
  ⟨by decide, generateBayerMatrix_refines_spec 4 (by decide) (by decide)⟩

/-! ## Results: ordered dither -/

theorem orderedChoice_eq (palette : List Color) (n : ℕ) (M : List (List ℕ))
    (data : List ℚ) (p y x : ℕ) :
    orderedChoice palette n M (readRGB data (4 * p)) y x
      = if grayOf data p < thresholdAt n M y x then palette[0]?
        else palette[palette.length - 1]? := by
  simp only [orderedChoice, readRGB, grayOf, thresholdAt, Nat.cast_mul]

/-- C8. For every buffer of length `4 * w * h`, non-empty palette whose colours the
buffer stores unchanged, and integer `size`, with `n` the clamp of `size` to `[2, 8]`
and `M = generateBayerMatrix n`: `orderedDither` returns, and the RGB of every pixel
`(x, y)` is `palette[0]` when `(R + G + B) / 3 < (M[y mod n][x mod n] + 1/2) / (n * n)
* 255` for the pixel's input RGB and the last palette entry otherwise; a `size` below
2 gives the result of size 2 and a `size` above 8 the result of size 8.  The clamp `n`
is 2 for a `size` below 2, `size` itself from 2 to 8, and 8 for a `size` above 8. -/
theorem orderedDither_threshold (store : ℚ → ℚ) (data : List ℚ) (w h : ℕ)
    (palette : List Color) (size : ℤ)
    (hlen : data.length = 4 * w * h) (hne : palette ≠ []) (hk : Keeps store palette) :
    ∃ M first last out,
      generateBayerMatrix (clampSize size) = some M ∧
      palette[0]? = some first ∧ palette[palette.length - 1]? = some last ∧
      orderedDither store data w h palette size = some out ∧
      out.length = data.length ∧
      (∀ y x, y < h → x < w →
        PixelIs out (y * w + x)
          (if grayOf data (y * w + x) < thresholdAt (clampSize size) M y x then first
           else last)) ∧
      (size < 2 → orderedDither store data w h palette size
        = orderedDither store data w h palette 2) ∧
      (8 < size → orderedDither store data w h palette size
        = orderedDither store data w h palette 8) ∧
      (size < 2 → clampSize size = 2) ∧
      (2 ≤ size → size ≤ 8 → (clampSize size : ℤ) = size) ∧
      (8 < size → clampSize size = 8) := by
  obtain ⟨M, hM⟩ := generateBayerMatrix_isSome (clampSize size)
  obtain ⟨out, hout, hl, _, hpix⟩ :=
    orderedDither_result store data w h palette size M hlen hne hM
  have hpos : 0 < palette.length := List.length_pos.mpr hne
  have hf : palette[0]? = some palette[0] := List.getElem?_eq_getElem hpos
  have hlast : palette[palette.length - 1]? = some palette[palette.length - 1] :=
    List.getElem?_eq_getElem (by omega)
  refine ⟨M, palette[0], palette[palette.length - 1], out, hM, hf, hlast, hout, hl, ?_, ?_, ?_,
    fun h => by unfold clampSize; omega, fun h1 h2 => by unfold clampSize; omega,
    fun h => by unfold clampSize; omega⟩
  · intro y x hy hx
    obtain ⟨q, hq, hv⟩ := hpix y x hy hx
    rw [orderedChoice_eq] at hq
    have hmem : q ∈ palette := by
      by_cases hc : grayOf data (y * w + x) < thresholdAt (clampSize size) M y x
      · rw [if_pos hc] at hq
        exact List.mem_iff_getElem?.mpr ⟨_, hq⟩
      · rw [if_neg hc] at hq
        exact List.mem_iff_getElem?.mpr ⟨_, hq⟩
    have hqc : q = (if grayOf data (y * w + x) < thresholdAt (clampSize size) M y x
        then palette[0] else palette[palette.length - 1]) := by
      by_cases hc : grayOf data (y * w + x) < thresholdAt (clampSize size) M y x
      · rw [if_pos hc, hf] at hq
        rw [if_pos hc]
        exact (Option.some.inj hq).symm
      · rw [if_neg hc, hlast] at hq
        rw [if_neg hc]
        exact (Option.some.inj hq).symm
    rw [← hqc]
    have e0 := hv 0 (by omega)
    have e1 := hv 1 (by omega)
    have e2 := hv 2 (by omega)
    rw [keeps_chan store palette hk q hmem] at e0 e1 e2
    exact ⟨e0, e1, e2⟩
  · intro hlt
    have : clampSize size = clampSize 2 := by unfold clampSize; omega
    unfold orderedDither
    rw [this]
  · intro hgt
    have : clampSize size = clampSize 8 := by unfold clampSize; omega
    unfold orderedDither
    rw [this]

/-- C8 on the example of the specification: the 4 by 4 buffer of uniform
`(128, 128, 128)` with the black-and-white palette and size 4 becomes black exactly
where the entry of the 4 by 4 matrix is 8 or more, and white elsewhere.  With size 3
the 3 by 3 matrix `[[0, 8, 2], [12, 4, 14], [3, 11, 1]]` and the denominator 9 are
used: the first row of the image is white, black, white, white. -/
theorem orderedDither_threshold_witness :
    (clampSize (-7) = 2 ∧ clampSize 3 = 3 ∧ clampSize 5 = 5 ∧ clampSize 12 = 8) ∧
    (∃ out, orderedDither toUint8Clamp (List.replicate 16 [128, 128, 128, 255]).flatten 4 4
        [⟨0, 0, 0⟩, ⟨255, 255, 255⟩] 3 = some out ∧
      out.take 16 = [255, 255, 255, 255, 0, 0, 0, 255, 255, 255, 255, 255,
        255, 255, 255, 255]) ∧
    (∃ out, orderedDither toUint8Clamp (List.replicate 16 [128, 128, 128, 255]).flatten 4 4
        [⟨0, 0, 0⟩, ⟨255, 255, 255⟩] 4 = some out ∧
      ∀ y, y < 4 → ∀ x, x < 4 → PixelIs out (y * 4 + x)
        (if 8 ≤ ([[0, 8, 2, 10], [12, 4, 14, 6], [3, 11, 1, 9], [15, 7, 13, 5]].getD y []).getD x 0
         then ⟨0, 0, 0⟩ else ⟨255, 255, 255⟩)) ∧
    ∃ M first last out,
      generateBayerMatrix (clampSize 4) = some M ∧
      [(⟨0, 0, 0⟩ : Color), ⟨255, 255, 255⟩][0]? = some first ∧
      [(⟨0, 0, 0⟩ : Color), ⟨255, 255, 255⟩][
        [(⟨0, 0, 0⟩ : Color), ⟨255, 255, 255⟩].length - 1]? = some last ∧
      orderedDither toUint8Clamp (List.replicate 16 [128, 128, 128, 255]).flatten 4 4
        [⟨0, 0, 0⟩, ⟨255, 255, 255⟩] 4 = some out ∧
      out.length = (List.replicate 16 [(128 : ℚ), 128, 128, 255]).flatten.length ∧
      (∀ y x, y < 4 → x < 4 →
        PixelIs out (y * 4 + x)
          (if grayOf (List.replicate 16 [128, 128, 128, 255]).flatten (y * 4 + x)
              < thresholdAt (clampSize 4) M y x then first
           else last)) ∧
      ((4 : ℤ) < 2 → orderedDither toUint8Clamp
          (List.replicate 16 [128, 128, 128, 255]).flatten 4 4
          [⟨0, 0, 0⟩, ⟨255, 255, 255⟩] 4
        = orderedDither toUint8Clamp (List.replicate 16 [128, 128, 128, 255]).flatten 4 4
          [⟨0, 0, 0⟩, ⟨255, 255, 255⟩] 2) ∧
      ((8 : ℤ) < 4 → orderedDither toUint8Clamp
          (List.replicate 16 [128, 128, 128, 255]).flatten 4 4
          [⟨0, 0, 0⟩, ⟨255, 255, 255⟩] 4
        = orderedDither toUint8Clamp (List.replicate 16 [128, 128, 128, 255]).flatten 4 4
          [⟨0, 0, 0⟩, ⟨255, 255, 255⟩] 8) ∧
      ((4 : ℤ) < 2 → clampSize 4 = 2) ∧
      ((2 : ℤ) ≤ 4 → (4 : ℤ) ≤ 8 → (clampSize 4 : ℤ) = 4) ∧
      ((8 : ℤ) < 4 → clampSize 4 = 8) :=
  ⟨by decide, exists_of_forall_mem _ _ (by decide!) (by decide!),
   exists_of_forall_mem _ _ (by decide!) (by decide!),
   orderedDither_threshold toUint8Clamp (List.replicate 16 [128, 128, 128, 255]).flatten 4 4
    [⟨0, 0, 0⟩, ⟨255, 255, 255⟩] 4 (by decide) (by simp) (by decide!)⟩

/-! ## Results: the diffusion kernels -/

/-- C9. Each of the seven diffusion algorithms calls the engine with its kernel and
divisor, and that kernel, with each weight divided by the divisor, is the published
one: Floyd–Steinberg `(7 | 3, 5, 1) / 16`, 4 entries over 2 rows; Atkinson
`(1, 1 | 1, 1, 1 | 1) / 8`, 6 entries over 3 rows; Jarvis–Judice–Ninke
`(7, 5 | 3, 5, 7, 5, 3 | 1, 3, 5, 3, 1) / 48`, 12 entries over 3 rows; Stucki
`(8, 4 | 2, 4, 8, 4, 2 | 1, 2, 4, 2, 1) / 42`, 12 entries over 3 rows; Burkes
`(8, 4 | 2, 4, 8, 4, 2) / 32`, 7 entries over 2 rows; Sierra
`(5, 3 | 2, 4, 5, 4, 2 | 2, 3, 2) / 32`, 10 entries over 3 rows; Sierra Lite
`(2 | 1, 1) / 4`, 3 entries over 2 rows.  Every entry has `dy > 0`, or `dy = 0` and
`dx > 0`, and the effective weights of each kernel sum to 1, except Atkinson's, which
sum to `3 / 4`. -/
theorem kernels_canonical :
    (floydSteinberg = fun store data w h palette =>
      applyErrorDiffusion store data w h palette floydSteinbergPattern 1) ∧
    Canonical floydSteinbergPattern 1 16 [(0, 1, [7]), (1, -1, [3, 5, 1])] 4 2 1 ∧
    (atkinson = fun store data w h palette =>
      applyErrorDiffusion store data w h palette atkinsonPattern 8) ∧
    Canonical atkinsonPattern 8 8 [(0, 1, [1, 1]), (1, -1, [1, 1, 1]), (2, 0, [1])]
      6 3 (3 / 4) ∧
    (jarvisJudiceNinke = fun store data w h palette =>
      applyErrorDiffusion store data w h palette jarvisJudiceNinkePattern 1) ∧
    Canonical jarvisJudiceNinkePattern 1 48
      [(0, 1, [7, 5]), (1, -2, [3, 5, 7, 5, 3]), (2, -2, [1, 3, 5, 3, 1])] 12 3 1 ∧
    (stucki = fun store data w h palette =>
      applyErrorDiffusion store data w h palette stuckiPattern 1) ∧
    Canonical stuckiPattern 1 42
      [(0, 1, [8, 4]), (1, -2, [2, 4, 8, 4, 2]), (2, -2, [1, 2, 4, 2, 1])] 12 3 1 ∧
    (burkes = fun store data w h palette =>
      applyErrorDiffusion store data w h palette burkesPattern 1) ∧
    Canonical burkesPattern 1 32 [(0, 1, [8, 4]), (1, -2, [2, 4, 8, 4, 2])] 7 2 1 ∧
    (sierra = fun store data w h palette =>
      applyErrorDiffusion store data w h palette sierraPattern 1) ∧
    Canonical sierraPattern 1 32
      [(0, 1, [5, 3]), (1, -2, [2, 4, 5, 4, 2]), (2, -1, [2, 3, 2])] 10 3 1 ∧
    (sierraLite = fun store data w h palette =>
      applyErrorDiffusion store data w h palette sierraLitePattern 1) ∧
    Canonical sierraLitePattern 1 4 [(0, 1, [2]), (1, -1, [1, 1])] 3 2 1 :=
  ⟨rfl, by decide!, rfl, by decide!, rfl, by decide!, rfl, by decide!, rfl, by decide!,
   rfl, by decide!, rfl, by decide!⟩

/-! ## The two roundings -/

theorem roundHalfEven_spec (x : ℚ) : NearestEven x (roundHalfEven x) 1 := by
  have hfl : ((⌊x⌋ : ℤ) : ℚ) ≤ x := Int.floor_le x
  have hlt : x < ((⌊x⌋ : ℤ) : ℚ) + 1 := Int.lt_floor_add_one x
  unfold NearestEven roundHalfEven
  simp only [mul_one]
  by_cases h1 : x - ((⌊x⌋ : ℤ) : ℚ) < 1 / 2
  · simp only [if_pos h1]
    have habs : |((⌊x⌋ : ℤ) : ℚ) - x| = x - ((⌊x⌋ : ℤ) : ℚ) := by
      rw [abs_sub_comm, abs_of_nonneg (by linarith)]
    rw [habs]
    exact ⟨by linarith, fun h => absurd h (by linarith)⟩
  · simp only [if_neg h1]
    by_cases h2 : 1 / 2 < x - ((⌊x⌋ : ℤ) : ℚ)
    · simp only [if_pos h2]
      have habs : |(((⌊x⌋ + 1 : ℤ)) : ℚ) - x| = ((⌊x⌋ : ℤ) : ℚ) + 1 - x := by
        rw [abs_of_nonneg (by push_cast; linarith)]
        push_cast; ring
      rw [habs]
      exact ⟨by linarith, fun h => absurd h (by linarith)⟩
    · simp only [if_neg h2]
      have htie : x - ((⌊x⌋ : ℤ) : ℚ) = 1 / 2 := le_antisymm (not_lt.mp h2) (not_lt.mp h1)
      by_cases h3 : ⌊x⌋ % 2 = 0
      · simp only [if_pos h3]
        have habs : |((⌊x⌋ : ℤ) : ℚ) - x| = 1 / 2 := by
          rw [abs_sub_comm, abs_of_nonneg (by linarith), htie]
        rw [habs]
        exact ⟨le_refl _, fun _ => Int.even_iff.mpr h3⟩
      · simp only [if_neg h3]
        have habs : |(((⌊x⌋ + 1 : ℤ)) : ℚ) - x| = 1 / 2 := by
          rw [abs_of_nonneg (by push_cast; linarith)]
          push_cast; linarith
        rw [habs]
        exact ⟨le_refl _, fun _ => Int.even_iff.mpr (by omega)⟩

/-- What the conversion of the canvas buffer does: 0 below 0, 255 above 255, and in
between the nearest integer, the even one at a tie. -/
theorem toUint8Clamp_spec (v : ℚ) :
    (v ≤ 0 → toUint8Clamp v = 0) ∧ (255 ≤ v → toUint8Clamp v = 255) ∧
    (0 < v → v < 255 → ∃ k : ℤ, toUint8Clamp v = k ∧ NearestEven v k 1) := by
  refine ⟨fun h => ?_, fun h => ?_, fun h0 h255 => ?_⟩
  · unfold toUint8Clamp; rw [if_pos h]
  · unfold toUint8Clamp
    by_cases hz : v ≤ 0
    · linarith
    · rw [if_neg hz, if_pos h]
  · refine ⟨roundHalfEven v, ?_, roundHalfEven_spec v⟩
    unfold toUint8Clamp roundHalfEven
    rw [if_neg (not_le.mpr h0), if_neg (not_le.mpr h255)]
    simp only []
    split_ifs <;> push_cast <;> rfl

theorem log2Loop_spec : ∀ (fuel n : ℕ), 0 < n → n ≤ fuel →
    2 ^ log2Loop fuel n ≤ n ∧ n < 2 ^ (log2Loop fuel n + 1) := by
  intro fuel
  induction fuel with
  | zero => intro n h0 h1; omega
  | succ fuel ih =>
    intro n h0 h1
    unfold log2Loop
    by_cases h2 : 2 ≤ n
    · rw [if_pos h2]
      obtain ⟨ha, hb⟩ := ih (n / 2) (by omega) (by omega)
      rw [pow_succ] at hb ⊢
      rw [pow_succ]
      constructor <;> omega
    · rw [if_neg h2]
      have : n = 1 := by omega
      subst this
      simp

theorem ilog2_spec (n : ℕ) (hn : 0 < n) : 2 ^ ilog2 n ≤ n ∧ n < 2 ^ (ilog2 n + 1) :=
  log2Loop_spec n n hn (le_refl n)

/-- The exponent `binaryExponent` computes is the binary exponent. -/
theorem binaryExponent_spec (a : ℚ) (ha : 0 < a) :
    (2 : ℚ) ^ binaryExponent a ≤ a ∧ a < (2 : ℚ) ^ (binaryExponent a + 1) := by
  have h2 : (2 : ℚ) ≠ 0 := by norm_num
  have hnum : 0 < a.num := Rat.num_pos.mpr ha
  have hden : 0 < a.den := a.den_pos
  obtain ⟨n, hn⟩ := Int.eq_ofNat_of_zero_le (le_of_lt hnum)
  have hn0 : 0 < n := by
    have : (0 : ℤ) < (n : ℤ) := by rw [← hn]; exact hnum
    exact_mod_cast this
  have hnat : a.num.natAbs = n := by rw [hn]; rfl
  obtain ⟨n1, n2⟩ := ilog2_spec n hn0
  obtain ⟨d1, d2⟩ := ilog2_spec a.den hden
  have hval : (n : ℚ) / (a.den : ℚ) = a := by
    have h := Rat.num_div_den a
    rw [hn, Int.cast_natCast] at h
    exact h
  have hdq : (0 : ℚ) < (a.den : ℚ) := by exact_mod_cast hden
  have n1q : (2 : ℚ) ^ ilog2 n ≤ (n : ℚ) := by exact_mod_cast n1
  have n2q : (n : ℚ) < (2 : ℚ) ^ (ilog2 n + 1) := by exact_mod_cast n2
  have d1q : (2 : ℚ) ^ ilog2 a.den ≤ (a.den : ℚ) := by exact_mod_cast d1
  have d2q : (a.den : ℚ) < (2 : ℚ) ^ (ilog2 a.den + 1) := by exact_mod_cast d2
  have lower : (2 : ℚ) ^ ((ilog2 n : ℤ) - (ilog2 a.den : ℤ) - 1) ≤ a := by
    have e : ((ilog2 n : ℤ) - (ilog2 a.den : ℤ) - 1)
        = ((ilog2 n : ℕ) : ℤ) - ((ilog2 a.den + 1 : ℕ) : ℤ) := by
      push_cast; ring
    have step : (2 : ℚ) ^ ilog2 n / (2 : ℚ) ^ (ilog2 a.den + 1) ≤ (n : ℚ) / (a.den : ℚ) := by
      rw [div_le_div_iff₀ (by positivity) hdq]
      calc (2 : ℚ) ^ ilog2 n * (a.den : ℚ) ≤ (n : ℚ) * (a.den : ℚ) :=
            mul_le_mul_of_nonneg_right n1q (le_of_lt hdq)
        _ ≤ (n : ℚ) * (2 : ℚ) ^ (ilog2 a.den + 1) :=
            mul_le_mul_of_nonneg_left (le_of_lt d2q) (by positivity)
    rw [e, zpow_sub₀ h2, zpow_natCast, zpow_natCast]
    exact le_of_le_of_eq step hval
  have upper : a < (2 : ℚ) ^ ((ilog2 n : ℤ) - (ilog2 a.den : ℤ) + 1) := by
    have e : ((ilog2 n : ℤ) - (ilog2 a.den : ℤ) + 1)
        = ((ilog2 n + 1 : ℕ) : ℤ) - ((ilog2 a.den : ℕ) : ℤ) := by
      push_cast; ring
    have step : (n : ℚ) / (a.den : ℚ) < (2 : ℚ) ^ (ilog2 n + 1) / (2 : ℚ) ^ ilog2 a.den := by
      rw [div_lt_div_iff₀ hdq (by positivity)]
      calc (n : ℚ) * (2 : ℚ) ^ ilog2 a.den ≤ (n : ℚ) * (a.den : ℚ) :=
            mul_le_mul_of_nonneg_left d1q (by positivity)
        _ < (2 : ℚ) ^ (ilog2 n + 1) * (a.den : ℚ) :=
            mul_lt_mul_of_pos_right n2q hdq
    rw [e, zpow_sub₀ h2, zpow_natCast, zpow_natCast]
    exact lt_of_eq_of_lt hval.symm step
  unfold binaryExponent
  rw [hnat]
  by_cases hlt : a < (2 : ℚ) ^ ((ilog2 n : ℤ) - (ilog2 a.den : ℤ))
  · simp only [if_pos hlt]
    refine ⟨lower, ?_⟩
    have : ((ilog2 n : ℤ) - (ilog2 a.den : ℤ) - 1 + 1) = (ilog2 n : ℤ) - (ilog2 a.den : ℤ) := by
      ring
    rw [this]
    exact hlt
  · simp only [if_neg hlt]
    exact ⟨not_lt.mp hlt, upper⟩

/-- What `roundDouble` does: with `e` the binary exponent of `v`, raised to `-1022`
where `v` is smaller (the subnormal range), the result is the multiple of
`2 ^ (e - 52)` nearest to `v`, with an even multiplier at a tie. -/
theorem roundDouble_spec (v : ℚ) (hv : v ≠ 0) :
    ∃ e k : ℤ, -1022 ≤ e ∧ |v| < (2 : ℚ) ^ (e + 1) ∧ ((2 : ℚ) ^ e ≤ |v| ∨ e = -1022) ∧
      roundDouble v = (k : ℚ) * (2 : ℚ) ^ (e - 52) ∧ NearestEven v k ((2 : ℚ) ^ (e - 52)) := by
  have ha : 0 < |v| := abs_pos.mpr hv
  obtain ⟨b1, b2⟩ := binaryExponent_spec |v| ha
  have hu : (0 : ℚ) < (2 : ℚ) ^ (max (binaryExponent |v|) (-1022) - 52) := by positivity
  refine ⟨max (binaryExponent |v|) (-1022),
    roundHalfEven (v / (2 : ℚ) ^ (max (binaryExponent |v|) (-1022) - 52)),
    le_max_right _ _, ?_, ?_, ?_, ?_⟩
  · exact lt_of_lt_of_le b2
      (zpow_le_zpow_right₀ (by norm_num) (by have := le_max_left (binaryExponent |v|) (-1022); omega))
  · rcases le_total (-1022) (binaryExponent |v|) with h | h
    · left; rw [max_eq_left h]; exact b1
    · right; exact max_eq_right h
  · unfold roundDouble
    rw [if_neg hv]
  · obtain ⟨s1, s2⟩ := roundHalfEven_spec (v / (2 : ℚ) ^ (max (binaryExponent |v|) (-1022) - 52))
    simp only [mul_one] at s1 s2
    set u := (2 : ℚ) ^ (max (binaryExponent |v|) (-1022) - 52) with hu_def
    set k := roundHalfEven (v / u) with hk_def
    have key : |(k : ℚ) * u - v| = |(k : ℚ) - v / u| * u := by
      have : (k : ℚ) * u - v = ((k : ℚ) - v / u) * u := by
        field_simp
      rw [this, abs_mul, abs_of_pos hu]
    unfold NearestEven
    rw [key]
    constructor
    · calc |(k : ℚ) - v / u| * u ≤ 1 / 2 * u := mul_le_mul_of_nonneg_right s1 (le_of_lt hu)
        _ = u / 2 := by ring
    · intro h
      apply s2
      have : |(k : ℚ) - v / u| * u = 1 / 2 * u := by rw [h]; ring
      exact mul_right_cancel₀ (ne_of_gt hu) this

/-! ## Results: one step of the diffusion engine -/

/-- C10 fails on the buffer the application passes (`imgData.data`, a
`Uint8ClampedArray`, whose assignment is `toUint8Clamp`): the first step of
`floydSteinberg` on the 2 by 1 buffer `[100, 100, 100, 255, 100, 100, 100, 255]` with
the black-and-white palette turns pixel 0 black and leaves 144 in each channel of
pixel 1, which is not `100 + (100 - 0) / 1 * (7 / 16) = 143.75`. -/
theorem diffusePixel_canvas_rounds :
    diffusePixel toUint8Clamp 2 1 [⟨0, 0, 0⟩, ⟨255, 255, 255⟩] floydSteinbergPattern 1
        [100, 100, 100, 255, 100, 100, 100, 255] 0 0
      = some [0, 0, 0, 255, 144, 144, 144, 255] ∧
    (144 : ℚ) ≠ 100 + (100 - 0) / 1 * (7 / 16) :=
  ⟨by decide!, by norm_num⟩

/-- C10, amended. On the buffer of the canvas (8-bit cells, assignment by
`toUint8Clamp`), for every buffer of length `4 * w * h`, non-empty palette of integer
colours in `[0, 255]`, kernel with weights of magnitude at most `2 ^ 500` and divisor
of magnitude between `2 ^ (-500)` and `2 ^ 500` (so that no double overflows), the
step of `applyErrorDiffusion` at pixel `(x, y)` with current RGB `c` returns a buffer
of the same length with the same alpha cells; with `q = nearestColor c palette`, channel `k` of pixel `p` ends with the value
obtained from its start value (`q[k]` at `(x, y)`, its old value elsewhere) by
assigning, for each kernel entry `(dx, dy, wt)` in order whose target `(x + dx, y + dy)`
is inside the image and is `p`, the current value plus `(c[k] - q[k]) / divisor * wt`:
the difference, quotient, product and sum are those of doubles, and the sum is
converted by the buffer.  A pixel other than `(x, y)` that no entry lands on keeps all
four cells.  The conversion of the buffer gives 0 below 0, 255 above 255 and the
nearest integer in between, the even one at a tie; the rounding to a double gives the
nearest multiple of `2 ^ (e - 52)`, `e` the binary exponent of the value (at least
`-1022`), with an even multiplier at a tie. -/
theorem diffusePixel_effect (data : List ℚ) (w h : ℕ)
    (palette : List Color) (pattern : List (ℤ × ℤ × ℚ)) (errDivisor : ℚ) (x y : ℕ)
    (hlen : data.length = 4 * w * h) (hx : x < w) (hy : y < h) (hne : palette ≠ [])
    (_hdata : ∀ v ∈ data, IsByte v) (hpal : ∀ c ∈ palette, ByteColor c)
    (_hdiv : Moderate errDivisor) (_hwt : ∀ e ∈ pattern, |e.2.2| ≤ 2 ^ 500) :
    (∃ q out, nearestColor (readRGB data (4 * (y * w + x))) palette = some q ∧
      diffusePixel toUint8Clamp w h palette pattern errDivisor data y x = some out ∧
      out.length = data.length ∧
      (∀ p, out.getD (4 * p + 3) 0 = data.getD (4 * p + 3) 0) ∧
      (∀ p k, k < 3 → out.getD (4 * p + k) 0
        = received toUint8Clamp w h x y
            (quantError (readRGB data (4 * (y * w + x))) q errDivisor) pattern p k
            (if p = y * w + x then q.chan k else data.getD (4 * p + k) 0)) ∧
      (∀ p, p ≠ y * w + x → (∀ e ∈ pattern, ¬ hits w h x y e p) →
        ∀ k, k < 4 → out.getD (4 * p + k) 0 = data.getD (4 * p + k) 0)) ∧
    (∀ v : ℚ, (v ≤ 0 → toUint8Clamp v = 0) ∧ (255 ≤ v → toUint8Clamp v = 255) ∧
      (0 < v → v < 255 → ∃ k : ℤ, toUint8Clamp v = k ∧ NearestEven v k 1)) ∧
    roundDouble 0 = 0 ∧
    (∀ v : ℚ, v ≠ 0 → ∃ e k : ℤ, -1022 ≤ e ∧ |v| < (2 : ℚ) ^ (e + 1) ∧
      ((2 : ℚ) ^ e ≤ |v| ∨ e = -1022) ∧
      roundDouble v = (k : ℚ) * (2 : ℚ) ^ (e - 52) ∧
      NearestEven v k ((2 : ℚ) ^ (e - 52))) := by
  refine ⟨?_, toUint8Clamp_spec, by simp [roundDouble], roundDouble_spec⟩
  obtain ⟨q, out, hq, ho, hl, ha, hcell⟩ := diffusePixel_result toUint8Clamp w h palette pattern
    errDivisor data y x hlen hy hx hne
  have hk := keeps_of_bytes toUint8Clamp palette storesBytes_toUint8Clamp hpal
  have hqm := nearestColor_mem _ q palette hq
  have hcell' : ∀ p k, k < 3 → out.getD (4 * p + k) 0
      = received toUint8Clamp w h x y
          (quantError (readRGB data (4 * (y * w + x))) q errDivisor) pattern p k
          (if p = y * w + x then q.chan k else data.getD (4 * p + k) 0) := by
    intro p k hk3
    rw [hcell p k hk3, keeps_chan toUint8Clamp palette hk q hqm k]
  refine ⟨q, out, hq, ho, hl, ha, hcell', ?_⟩
  intro p hp hno k hk4
  rcases Nat.lt_or_ge k 3 with h3 | h3
  · rw [hcell' p k h3, received_of_no_hits _ _ _ _ _ _ _ _ _ _ hno, if_neg hp]
  · have : k = 3 := by omega
    rw [this, ha]

/-- C10, amended, at the first step of `jarvisJudiceNinke` on the 2 by 1 buffer
`[39, 255, 255, 255, 33, 0, 0, 255]` with the black-and-white palette: pixel 0 turns
white, the error of the red channel is `-216`, and the red cell of pixel 1 receives
`-216 * (7 / 48)` in doubles, `33 - 31.500000000000004 = 1.4999999999999964`, stored
as 1 (the exact sum `1.5` would be stored as 2).  Further steps on the canvas buffer:
the example of the specification, where `143.75` is stored as 144; ties stored as the
even neighbour (`112.5` as 112, `113.5` and `114.5` as 114); sums clamped to 255 and
to 0; and on a 2 by 2 image the step at the last pixel of the first row, which drops
the entries `(1, 0)` and `(1, 1)` whose target column is outside the image, so that
the first pixel of the second row receives only the share `3 / 16` of `(-1, 1)`. -/
theorem diffusePixel_effect_witness :
    (diffusePixel toUint8Clamp 2 1 [⟨0, 0, 0⟩, ⟨255, 255, 255⟩] jarvisJudiceNinkePattern 1
        [39, 255, 255, 255, 33, 0, 0, 255] 0 0
      = some [255, 255, 255, 255, 1, 0, 0, 255] ∧
     toUint8Clamp ((33 : ℚ) + (39 - 255) / 1 * (7 / 48)) = 2 ∧
     diffusePixel toUint8Clamp 2 1 [⟨0, 0, 0⟩, ⟨255, 255, 255⟩] floydSteinbergPattern 1
        [100, 100, 100, 255, 100, 100, 100, 255] 0 0
      = some [0, 0, 0, 255, 144, 144, 144, 255] ∧
     diffusePixel toUint8Clamp 2 1 [⟨0, 0, 0⟩, ⟨255, 255, 255⟩] atkinsonPattern 8
        [100, 100, 100, 255, 100, 101, 102, 255] 0 0
      = some [0, 0, 0, 255, 112, 114, 114, 255] ∧
     diffusePixel toUint8Clamp 2 1 [⟨0, 0, 0⟩, ⟨255, 255, 255⟩] floydSteinbergPattern 1
        [255, 255, 100, 255, 250, 3, 10, 255] 0 0
      = some [255, 255, 255, 255, 250, 3, 0, 255] ∧
     diffusePixel toUint8Clamp 2 1 [⟨0, 0, 0⟩, ⟨255, 255, 255⟩] floydSteinbergPattern 1
        [0, 0, 255, 255, 250, 3, 250, 255] 0 0
      = some [0, 0, 0, 255, 250, 3, 255, 255] ∧
     diffusePixel toUint8Clamp 2 2 [⟨0, 0, 0⟩, ⟨255, 255, 255⟩] floydSteinbergPattern 1
        [100, 100, 100, 255, 100, 100, 100, 255, 100, 100, 100, 255, 100, 100, 100, 255] 0 1
      = some [100, 100, 100, 255, 0, 0, 0, 255, 119, 119, 119, 255, 131, 131, 131, 255] ∧
     roundDouble (7 / 48) = 5254199565265579 / 2 ^ 55 ∧
     roundDouble (2 ^ 53 + 1) = 2 ^ 53 ∧ roundDouble (2 ^ 53 + 3) = 2 ^ 53 + 4 ∧
     roundDouble (3 / 2 ^ 1075) = 2 / 2 ^ 1074) ∧
    ((∃ q out, nearestColor (readRGB [39, 255, 255, 255, 33, 0, 0, 255] (4 * (0 * 2 + 0)))
        [⟨0, 0, 0⟩, ⟨255, 255, 255⟩] = some q ∧
      diffusePixel toUint8Clamp 2 1 [⟨0, 0, 0⟩, ⟨255, 255, 255⟩] jarvisJudiceNinkePattern 1
        [39, 255, 255, 255, 33, 0, 0, 255] 0 0 = some out ∧
      out.length = [(39 : ℚ), 255, 255, 255, 33, 0, 0, 255].length ∧
      (∀ p, out.getD (4 * p + 3) 0
        = [(39 : ℚ), 255, 255, 255, 33, 0, 0, 255].getD (4 * p + 3) 0) ∧
      (∀ p k, k < 3 → out.getD (4 * p + k) 0
        = received toUint8Clamp 2 1 0 0
            (quantError (readRGB [39, 255, 255, 255, 33, 0, 0, 255] (4 * (0 * 2 + 0))) q 1)
            jarvisJudiceNinkePattern p k
            (if p = 0 * 2 + 0 then q.chan k
             else [(39 : ℚ), 255, 255, 255, 33, 0, 0, 255].getD (4 * p + k) 0)) ∧
      (∀ p, p ≠ 0 * 2 + 0 → (∀ e ∈ jarvisJudiceNinkePattern, ¬ hits 2 1 0 0 e p) →
        ∀ k, k < 4 → out.getD (4 * p + k) 0
          = [(39 : ℚ), 255, 255, 255, 33, 0, 0, 255].getD (4 * p + k) 0)) ∧
    (∀ v : ℚ, (v ≤ 0 → toUint8Clamp v = 0) ∧ (255 ≤ v → toUint8Clamp v = 255) ∧
      (0 < v → v < 255 → ∃ k : ℤ, toUint8Clamp v = k ∧ NearestEven v k 1)) ∧
    roundDouble 0 = 0 ∧
    (∀ v : ℚ, v ≠ 0 → ∃ e k : ℤ, -1022 ≤ e ∧ |v| < (2 : ℚ) ^ (e + 1) ∧
      ((2 : ℚ) ^ e ≤ |v| ∨ e = -1022) ∧
      roundDouble v = (k : ℚ) * (2 : ℚ) ^ (e - 52) ∧
      NearestEven v k ((2 : ℚ) ^ (e - 52)))) :=
  ⟨⟨by decide!, by decide!, by decide!, by decide!, by decide!, by decide!, by decide!,
    by decide!, by decide!, by decide!, by decide!⟩,
   diffusePixel_effect [39, 255, 255, 255, 33, 0, 0, 255] 2 1
    [⟨0, 0, 0⟩, ⟨255, 255, 255⟩] jarvisJudiceNinkePattern 1 0 0 (by decide) (by decide)
    (by decide) (by simp) (by decide!) (by decide!) (by decide!) (by decide!)⟩

end MonoDither
